import Mathlib

set_option maxHeartbeats 1000000

namespace FG

/-!
Shallow embedding of the fg2 frame-graph core (filament, src/filament/src/fg2).

Cluster 1 models the handle / slot / version state of `FrameGraph`
(FrameGraph.cpp): `isValid`, `assertValid`, `readInternal`, `writeInternal`,
`addResourceInternal`, and the spec-modelled `write` wrapper.
-/

/-- Handle into the frame graph. Mirrors `FrameGraphHandle { index : u16, version : u16 }`
(FrameGraphId.h is not under src/; modelled from the spec). The C++ uninitialized
sentinel value of `index` is modelled by the explicit `initialized` flag;
`FrameGraphHandle{}` (the default, "null" handle) has `initialized = false`. -/
structure FrameGraphHandle where
  index : Nat
  version : Nat
  initialized : Bool
  deriving Repr, DecidableEq

/-- Default-constructed (uninitialized) handle, `FrameGraphHandle{}` in C++. -/
def FrameGraphHandle.null : FrameGraphHandle := ⟨0, 0, false⟩

/-- `FrameGraphHandle::isInitialized()`. -/
def FrameGraphHandle.isInitialized (h : FrameGraphHandle) : Bool := h.initialized

/-- Modulus of the `u16` `version` field. -/
def u16Mod : Nat := 65536

/-- `ResourceSlot { rid : u32, nid : u32 }` (spec §3): maps a handle index to the
current resource record and current resource node. -/
structure ResourceSlot where
  rid : Nat
  nid : Nat
  deriving Repr, DecidableEq

/-- The part of `VirtualResource` (details/Resource.h, lines 48-66) that the
handle-versioning claims need: the last-written `version` (initially 0). -/
structure VirtualResource where
  version : Nat
  deriving Repr, DecidableEq

/-- The part of `ResourceNode` needed here. ResourceNode.h is not under src/;
modelled from the spec (§3, §4.C): a node holds the `FrameGraphHandle` it
represents and its single incoming writer edge or none for the initial state;
`hasWriter` is whether that writer edge has been set. A node is created
(by `mArena.make<ResourceNode>(*this, handle)`) with no writer. -/
structure ResourceNode where
  resourceHandle : FrameGraphHandle
  hasWriter : Bool
  deriving Repr, DecidableEq

/-- State of `FrameGraph` that handle versioning touches: the `mResourceSlots`,
`mResources` and `mResourceNodes` vectors (FrameGraph.cpp, lines 82-94). -/
structure FrameGraph where
  resourceSlots : List ResourceSlot
  resources : List VirtualResource
  resourceNodes : List ResourceNode
  deriving Repr, DecidableEq

/-- Empty frame graph (all vectors empty). -/
def FrameGraph.empty : FrameGraph := ⟨[], [], []⟩

/-- `FrameGraph::getResource(handle)`: slot lookup then resource lookup. The C++
asserts the handle is initialized and in range (fatal `UnknownResource`);
the out-of-range branch is modelled as `none`. -/
def FrameGraph.getResource (fg : FrameGraph) (h : FrameGraphHandle) : Option VirtualResource :=
  match fg.resourceSlots[h.index]? with
  | none => none
  | some slot => fg.resources[slot.rid]?

/-- `FrameGraph::isValid` (FrameGraph.cpp, lines 289-299): false when the handle
is uninitialized, otherwise true iff the handle's version equals the resource's
current version. -/
def FrameGraph.isValid (fg : FrameGraph) (h : FrameGraphHandle) : Bool :=
  if !h.isInitialized then false
  else
    match fg.getResource h with
    | none => false
    | some r => h.version == r.version

/-- `FrameGraph::assertValid` (lines 301-305): a non-fatal precondition assertion;
it logs and returns `isValid`. -/
def FrameGraph.assertValid (fg : FrameGraph) (h : FrameGraphHandle) : Bool :=
  fg.isValid h

/-- Result of `readInternal` / `writeInternal`: the returned handle and the two
out-pointers `*pNode` (index into `resourceNodes`) and `*pResource` (index into
`resources`); `none` models a null pointer. -/
structure AccessResult where
  handle : FrameGraphHandle
  node : Option Nat
  resource : Option Nat
  deriving Repr, DecidableEq

/-- Null result: `{}` handle, both out-pointers null. -/
def AccessResult.null : AccessResult := ⟨FrameGraphHandle.null, none, none⟩

/-- `FrameGraph::readInternal` (FrameGraph.cpp, lines 230-243). Returns the
possibly-updated state and the result. The in-range asserts on `slot.rid` /
`slot.nid` are modelled by the `none` fallbacks. -/
def FrameGraph.readInternal (fg : FrameGraph) (h : FrameGraphHandle) :
    FrameGraph × AccessResult :=
  if !fg.assertValid h then (fg, AccessResult.null)
  else
    match fg.resourceSlots[h.index]? with
    | none => (fg, AccessResult.null)
    | some slot =>
      if slot.rid < fg.resources.length && slot.nid < fg.resourceNodes.length then
        (fg, ⟨h, some slot.nid, some slot.rid⟩)
      else (fg, AccessResult.null)

/-- `FrameGraph::writeInternal` (FrameGraph.cpp, lines 245-277). If the current
node of the handle's slot has no writer, returns the same handle and state;
otherwise bumps the version (u16 arithmetic), appends a fresh `ResourceNode`,
rebinds the slot's `nid` (keeping `rid`), and stores the new version in the
resource. -/
def FrameGraph.writeInternal (fg : FrameGraph) (h : FrameGraphHandle) :
    FrameGraph × AccessResult :=
  if !fg.assertValid h then (fg, AccessResult.null)
  else
    match fg.resourceSlots[h.index]? with
    | none => (fg, AccessResult.null)
    | some slot =>
      match fg.resources[slot.rid]?, fg.resourceNodes[slot.nid]? with
      | some _r, some node =>
        if !node.hasWriter then
          (fg, ⟨h, some slot.nid, some slot.rid⟩)
        else
          let h' : FrameGraphHandle := ⟨h.index, (h.version + 1) % u16Mod, h.initialized⟩
          let newNid := fg.resourceNodes.length
          ( ⟨fg.resourceSlots.set h.index ⟨slot.rid, newNid⟩,
             fg.resources.set slot.rid ⟨h'.version⟩,
             fg.resourceNodes ++ [⟨h', false⟩]⟩,
            ⟨h', some newNid, some slot.rid⟩ )
      | _, _ => (fg, AccessResult.null)

/-- `FrameGraph::addResourceInternal` (FrameGraph.cpp, lines 209-218) restricted
to the versioning state: handle index = current slot count, slot maps to the
appended resource (version 0) and appended node (no writer). -/
def FrameGraph.create (fg : FrameGraph) : FrameGraph × FrameGraphHandle :=
  let handle : FrameGraphHandle := ⟨fg.resourceSlots.length, 0, true⟩
  ( ⟨fg.resourceSlots ++ [⟨fg.resources.length, fg.resourceNodes.length⟩],
     fg.resources ++ [⟨0⟩],
     fg.resourceNodes ++ [⟨handle, false⟩]⟩,
    handle )

/-- Replace the element at index `i` by `f` of it, when in range. -/
def modifyAt {α : Type} (l : List α) (i : Nat) (f : α → α) : List α :=
  match l[i]? with
  | none => l
  | some a => l.set i (f a)

/-- Modelled from the spec: the `FrameGraph::write<R>` template lives in
FrameGraph.h, which is not under src/. Per the spec (§4.E), `write` performs the
versioning of `writeInternal` and then "records the writer edge against the new
node" (via `Resource::connect` / `ResourceNode::setWriter`, which always succeeds
for a non-imported resource). Here the edge recording is modelled by setting the
returned node's `hasWriter` flag. -/
def FrameGraph.write (fg : FrameGraph) (h : FrameGraphHandle) :
    FrameGraph × FrameGraphHandle :=
  let (fg1, res) := fg.writeInternal h
  match res.node with
  | none => (fg1, res.handle)
  | some nid =>
    ( ⟨fg1.resourceSlots, fg1.resources,
       modifyAt fg1.resourceNodes nid (fun n => ⟨n.resourceHandle, true⟩)⟩,
      res.handle )

/-- Sequence of `n` writes, each writing the handle produced by the previous
write (the write-aliasing discipline of spec scenario S2); returns the final
state and the list of produced handles. -/
def writeSeq (fg : FrameGraph) (h : FrameGraphHandle) : Nat → FrameGraph × List FrameGraphHandle
  | 0 => (fg, [])
  | n + 1 =>
    let p := fg.write h
    let q := writeSeq p.1 p.2 n
    (q.1, p.2 :: q.2)

/-- Sample state for witnesses: one resource at version 0 whose node already has
a writer (the state right after creating a resource and writing it once). -/
def fgSample : FrameGraph := ⟨[⟨0, 0⟩], [⟨0⟩], [⟨⟨0, 0, true⟩, true⟩]⟩

/-- Sample valid handle for `fgSample`. -/
def hSample : FrameGraphHandle := ⟨0, 0, true⟩

/-- C1: for every call to `writeInternal` on a valid handle, if the current
ResourceNode of the handle's slot has no writer then the same handle is returned
and the state (in particular the node list) is unchanged; otherwise the returned
handle's version is the input version plus one (u16, non-overflowing here), a
fresh ResourceNode is appended, the slot's `nid` is rebound to it while its `rid`
is unchanged, and the resource's stored version becomes the new handle's
version. -/
theorem writeInternal_versioning (fg : FrameGraph) (h : FrameGraphHandle)
    (slot : ResourceSlot) (node : ResourceNode) (r : VirtualResource)
    (hv : fg.isValid h = true)
    (hslot : fg.resourceSlots[h.index]? = some slot)
    (hr : fg.resources[slot.rid]? = some r)
    (hnode : fg.resourceNodes[slot.nid]? = some node)
    (hnowrap : h.version + 1 < u16Mod) :
    (node.hasWriter = false →
      fg.writeInternal h = (fg, ⟨h, some slot.nid, some slot.rid⟩)) ∧
    (node.hasWriter = true →
      fg.writeInternal h =
        (⟨fg.resourceSlots.set h.index ⟨slot.rid, fg.resourceNodes.length⟩,
          fg.resources.set slot.rid ⟨h.version + 1⟩,
          fg.resourceNodes ++ [⟨⟨h.index, h.version + 1, h.initialized⟩, false⟩]⟩,
         ⟨⟨h.index, h.version + 1, h.initialized⟩,
          some fg.resourceNodes.length, some slot.rid⟩)) := by
  unfold FrameGraph.writeInternal FrameGraph.assertValid
  simp only [hv, hslot, Bool.not_true, Bool.false_eq_true, if_false]
  simp only [hr, hnode, Nat.mod_eq_of_lt hnowrap]
  constructor
  · intro hw
    simp [hw]
  · intro hw
    simp [hw]

/-- Witness for C1 at a concrete input. -/
theorem writeInternal_versioning_witness :
    fgSample.isValid hSample = true ∧
    (((⟨⟨0, 0, true⟩, true⟩ : ResourceNode).hasWriter = false →
      fgSample.writeInternal hSample = (fgSample, ⟨hSample, some 0, some 0⟩)) ∧
     ((⟨⟨0, 0, true⟩, true⟩ : ResourceNode).hasWriter = true →
      fgSample.writeInternal hSample =
        (⟨[⟨0, 1⟩], [⟨1⟩], [⟨⟨0, 0, true⟩, true⟩, ⟨⟨0, 1, true⟩, false⟩]⟩,
         ⟨⟨0, 1, true⟩, some 1, some 0⟩))) :=
  ⟨by decide,
   writeInternal_versioning fgSample hSample ⟨0, 0⟩ ⟨⟨0, 0, true⟩, true⟩ ⟨0⟩
     (by decide) (by decide) (by decide) (by decide) (by decide)⟩

/-- C5: for every handle that is uninitialized, or whose version differs from
its resource's current version, `isValid` returns false, and `readInternal` /
`writeInternal` on such a handle return the null handle with both out-pointers
null, leaving the state unchanged (no edge added, no fatal failure). -/
theorem invalidHandle_noop (fg : FrameGraph) (h : FrameGraphHandle)
    (hinv : h.isInitialized = false ∨
            ∃ r, fg.getResource h = some r ∧ h.version ≠ r.version) :
    fg.isValid h = false ∧
    fg.readInternal h = (fg, AccessResult.null) ∧
    fg.writeInternal h = (fg, AccessResult.null) := by
  have hv : fg.isValid h = false := by
    unfold FrameGraph.isValid
    rcases hinv with h1 | ⟨r, hr, hne⟩
    · rw [h1]
      simp
    · rw [hr]
      have : h.isInitialized = true ∨ h.isInitialized = false := by
        cases h.isInitialized
        · exact Or.inr rfl
        · exact Or.inl rfl
      rcases this with h2 | h2 <;> rw [h2] <;> simp [hne]
  refine ⟨hv, ?_, ?_⟩
  · unfold FrameGraph.readInternal FrameGraph.assertValid
    rw [hv]
    simp
  · unfold FrameGraph.writeInternal FrameGraph.assertValid
    rw [hv]
    simp

/-- Handle of version `i` for the single resource of the write-sequence scenario. -/
def vh (i : Nat) : FrameGraphHandle := ⟨0, i, true⟩

/-- Node of version `i` with its writer already recorded. -/
def nodeOf (i : Nat) : ResourceNode := ⟨vh i, true⟩

/-- Closed form of the state after `v + 1` writes to a freshly created resource:
slot `⟨rid 0, nid v⟩`, resource at version `v`, one node per version `0..v`,
each with a writer. -/
def stateV (v : Nat) : FrameGraph :=
  ⟨[⟨0, v⟩], [⟨v⟩], (List.range (v + 1)).map nodeOf⟩

theorem set_concat_length {α : Type} (l : List α) (a b : α) :
    (l ++ [a]).set l.length b = l ++ [b] := by
  induction l with
  | nil => rfl
  | cons x xs ih => simp [ih]

theorem getElem?_concat_of_length {α : Type} (l : List α) (a : α) (n : Nat)
    (h : l.length = n) : (l ++ [a])[n]? = some a := by
  subst h
  exact List.getElem?_concat_length _ _

theorem set_concat_of_length {α : Type} (l : List α) (a b : α) (n : Nat)
    (h : l.length = n) : (l ++ [a]).set n b = l ++ [b] := by
  subst h
  exact set_concat_length _ _ _

theorem stateV_write_step (v : Nat) (hv : v + 1 < u16Mod) :
    (stateV v).write (vh v) = (stateV (v + 1), vh (v + 1)) := by
  have hnode : ((List.range (v + 1)).map nodeOf)[v]? = some (nodeOf v) := by
    rw [List.getElem?_map, List.getElem?_range (by omega)]
    rfl
  have hlen : ((List.range (v + 1)).map nodeOf).length = v + 1 := by simp
  have hget : (List.map nodeOf (List.range (v + 1)) ++
      [(⟨⟨0, v + 1, true⟩, false⟩ : ResourceNode)])[v + 1]?
      = some ⟨⟨0, v + 1, true⟩, false⟩ :=
    getElem?_concat_of_length _ _ _ hlen
  have hset : (List.map nodeOf (List.range (v + 1)) ++
      [(⟨⟨0, v + 1, true⟩, false⟩ : ResourceNode)]).set (v + 1) ⟨⟨0, v + 1, true⟩, true⟩
      = List.map nodeOf (List.range (v + 1)) ++ [⟨⟨0, v + 1, true⟩, true⟩] :=
    set_concat_of_length _ _ _ _ hlen
  unfold FrameGraph.write FrameGraph.writeInternal FrameGraph.assertValid
    FrameGraph.isValid FrameGraph.getResource stateV vh
  simp only [FrameGraphHandle.isInitialized, Bool.not_true, List.getElem?_cons_zero,
    beq_self_eq_true, if_true, Bool.false_eq_true, if_false, hnode, nodeOf, vh,
    Bool.not_false, Nat.mod_eq_of_lt hv, hlen]
  simp only [modifyAt, hget, hset]
  simp only [List.range_succ, List.map_append, List.map_cons, List.map_nil, nodeOf, vh]
  rfl

/-- Closed form of a chain of writes starting from the state after `v + 1`
writes: `n` further writes produce the handles of versions `v+1 .. v+n`. -/
theorem writeSeq_closed (n : Nat) : ∀ v : Nat, v + n < u16Mod →
    writeSeq (stateV v) (vh v) n = (stateV (v + n), (List.range' (v + 1) n).map vh) := by
  induction n with
  | zero => intro v _; rfl
  | succ n ih =>
    intro v hv
    show (let p := (stateV v).write (vh v)
          let q := writeSeq p.1 p.2 n
          (q.1, p.2 :: q.2)) = _
    rw [stateV_write_step v (by omega)]
    simp only []
    rw [ih (v + 1) (by omega)]
    simp only [List.range'_succ, List.map_cons]
    have : v + 1 + n = v + (n + 1) := by omega
    rw [this]

/-- Closed form of `n + 1` writes from a freshly created resource. -/
theorem writeSeq_from_create (n : Nat) (hn : n < u16Mod) :
    writeSeq (FrameGraph.empty.create).1 (FrameGraph.empty.create).2 (n + 1) =
      (stateV n, (List.range (n + 1)).map vh) := by
  show (let p := (FrameGraph.empty.create).1.write (FrameGraph.empty.create).2
        let q := writeSeq p.1 p.2 n
        (q.1, p.2 :: q.2)) = _
  have h0 : (FrameGraph.empty.create).1.write (FrameGraph.empty.create).2
      = (stateV 0, vh 0) := by decide
  rw [h0]
  simp only []
  rw [writeSeq_closed n 0 (by omega)]
  simp only [Nat.zero_add]
  rw [List.range_eq_range', List.range'_succ]
  rfl

/-- C2 counterexample: in scenario S2 (pass A writes the freshly created `X`,
pass B writes the handle A got back), the produced handles have versions
`[0, 1]` — the first write returns the same version-0 handle because the fresh
node has no writer — and the resource's final version is 1; the claim predicts
versions `[1, 2]` and final version 2. -/
theorem writeSeq_S2_counterexample :
    (writeSeq (FrameGraph.empty.create).1 (FrameGraph.empty.create).2 2).2.map
        FrameGraphHandle.version = [0, 1] ∧
    ¬ ((writeSeq (FrameGraph.empty.create).1 (FrameGraph.empty.create).2 2).2.map
        FrameGraphHandle.version = [1, 2]) ∧
    (writeSeq (FrameGraph.empty.create).1 (FrameGraph.empty.create).2 2).1.resources = [⟨1⟩] ∧
    ¬ ((writeSeq (FrameGraph.empty.create).1 (FrameGraph.empty.create).2 2).1.resources
        = [⟨2⟩]) := by decide

/-- C2 (amended): for a sequence of `n ≥ 1` writes to a freshly created resource
(each write writing the handle produced by the previous one, `n ≤ 2^16`), the
produced handles `h_0 .. h_(n-1)` have `h_i.version = i` (the first write
returns the same version-0 handle, each later write increments), all share
index 0, only the last one is valid afterwards, the slot keeps `rid = 0`
throughout, and the resource's final stored version is `n - 1`. -/
theorem writeSeq_versions (n : Nat) (hn : 1 ≤ n) (hmod : n ≤ u16Mod) :
    (writeSeq (FrameGraph.empty.create).1 (FrameGraph.empty.create).2 n).2.length = n ∧
    (∀ i, i < n →
      (writeSeq (FrameGraph.empty.create).1 (FrameGraph.empty.create).2 n).2[i]?
        = some ⟨0, i, true⟩) ∧
    (∀ i hi,
      (writeSeq (FrameGraph.empty.create).1 (FrameGraph.empty.create).2 n).2[i]? = some hi →
      ((writeSeq (FrameGraph.empty.create).1 (FrameGraph.empty.create).2 n).1.isValid hi
          = true ↔ i = n - 1)) ∧
    (writeSeq (FrameGraph.empty.create).1 (FrameGraph.empty.create).2 n).1.resourceSlots
        = [⟨0, n - 1⟩] ∧
    (writeSeq (FrameGraph.empty.create).1 (FrameGraph.empty.create).2 n).1.resources
        = [⟨n - 1⟩] := by
  obtain ⟨m, rfl⟩ : ∃ m, n = m + 1 := ⟨n - 1, by omega⟩
  rw [writeSeq_from_create m (by omega)]
  have hget : ∀ i, i < m + 1 → ((List.range (m + 1)).map vh)[i]? = some ⟨0, i, true⟩ := by
    intro i hi
    rw [List.getElem?_map, List.getElem?_range hi]
    rfl
  refine ⟨by simp, fun i hi => hget i hi, ?_, rfl, rfl⟩
  intro i hi h
  have hi' : i < m + 1 := by
    by_contra hc
    rw [List.getElem?_eq_none] at h
    · exact Option.noConfusion h
    · simp; omega
  rw [hget i hi'] at h
  cases h
  unfold FrameGraph.isValid FrameGraph.getResource stateV
  simp only [FrameGraphHandle.isInitialized, Bool.not_true, List.getElem?_cons_zero,
    Bool.false_eq_true, if_false]
  constructor
  · intro hb
    have : i = m := by
      have := of_decide_eq_true hb
      omega
    omega
  · intro hb
    subst hb
    simp [Nat.add_sub_cancel]

/-- Witness for C2's amended theorem at `n = 2`. -/
theorem writeSeq_versions_witness :
    (1 ≤ 2 ∧ 2 ≤ u16Mod) ∧
    ((writeSeq (FrameGraph.empty.create).1 (FrameGraph.empty.create).2 2).2.length = 2 ∧
     (∀ i, i < 2 →
       (writeSeq (FrameGraph.empty.create).1 (FrameGraph.empty.create).2 2).2[i]?
         = some ⟨0, i, true⟩) ∧
     (∀ i hi,
       (writeSeq (FrameGraph.empty.create).1 (FrameGraph.empty.create).2 2).2[i]? = some hi →
       ((writeSeq (FrameGraph.empty.create).1 (FrameGraph.empty.create).2 2).1.isValid hi
           = true ↔ i = 2 - 1)) ∧
     (writeSeq (FrameGraph.empty.create).1 (FrameGraph.empty.create).2 2).1.resourceSlots
         = [⟨0, 2 - 1⟩] ∧
     (writeSeq (FrameGraph.empty.create).1 (FrameGraph.empty.create).2 2).1.resources
         = [⟨2 - 1⟩]) :=
  ⟨⟨by decide, by decide⟩, writeSeq_versions 2 (by decide) (by decide)⟩

/-- Witness for C5 at a concrete input (version mismatch: handle v0, resource v1). -/
theorem invalidHandle_noop_witness :
    (FrameGraphHandle.isInitialized ⟨0, 0, true⟩ = false ∨
     ∃ r, (FrameGraph.mk [⟨0, 0⟩] [⟨1⟩] [⟨⟨0, 1, true⟩, true⟩]).getResource ⟨0, 0, true⟩ = some r ∧
          (0 : Nat) ≠ r.version) ∧
    ((FrameGraph.mk [⟨0, 0⟩] [⟨1⟩] [⟨⟨0, 1, true⟩, true⟩]).isValid ⟨0, 0, true⟩ = false ∧
     (FrameGraph.mk [⟨0, 0⟩] [⟨1⟩] [⟨⟨0, 1, true⟩, true⟩]).readInternal ⟨0, 0, true⟩ =
       (⟨[⟨0, 0⟩], [⟨1⟩], [⟨⟨0, 1, true⟩, true⟩]⟩, AccessResult.null) ∧
     (FrameGraph.mk [⟨0, 0⟩] [⟨1⟩] [⟨⟨0, 1, true⟩, true⟩]).writeInternal ⟨0, 0, true⟩ =
       (⟨[⟨0, 0⟩], [⟨1⟩], [⟨⟨0, 1, true⟩, true⟩]⟩, AccessResult.null)) :=
  ⟨Or.inr ⟨⟨1⟩, by decide, by decide⟩,
   invalidHandle_noop _ _ (Or.inr ⟨⟨1⟩, by decide, by decide⟩)⟩

/-!
Cluster 3 models `FrameGraph::execute` (FrameGraph.cpp, lines 155-192) as a
trace of observable calls: driver group markers and flush, allocator
create/destroy, sub-resource backing copies, executor invocations, and the
final `reset()`.
-/

/-- Observable events of one `execute` run. -/
inductive Ev where
  | pushMarker (s : String)
  | popMarker
  | createRes (rid : Nat)
  | copyFromParent (rid : Nat)
  | execPass (pid : Nat)
  | destroyRes (rid : Nat)
  | flush
  | resetAll
  deriving Repr, DecidableEq

/-- Per-pass data `execute` reads: identity of the pass object (`pid`, distinct
arena objects modelled by distinct ids), its name, and the culled flag of its
dependency-graph node. -/
structure XPass where
  pid : Nat
  name : String
  culled : Bool
  deriving Repr, DecidableEq

/-- Per-resource data `execute` reads (details/Resource.h): `imported` resources
override devirtualize/destroy to no-ops (lines 246-251), `subres` means
`parent != this` (`isSubResource`), and `first`/`last` are the passes computed
by compile (modelled by pass ids, `none` for culled-away resources). -/
structure XResource where
  rid : Nat
  imported : Bool
  subres : Bool
  first : Option Nat
  last : Option Nat
  deriving Repr, DecidableEq

/-- `Resource<R>::devirtualize` (Resource.h, lines 210-217) and the
`ImportedResource` no-op override (lines 246-248): a non-imported root calls
`R::create`; a non-imported sub-resource copies the backing from its parent. -/
def devirtualizeEvents (r : XResource) : List Ev :=
  if r.imported then []
  else if !r.subres then [Ev.createRes r.rid]
  else [Ev.copyFromParent r.rid]

/-- `Resource<R>::destroy` (Resource.h, lines 219-223) and the
`ImportedResource` no-op override (lines 249-251): only a non-imported root
calls `R::destroy`. -/
def destroyEvents (r : XResource) : List Ev :=
  if r.imported then []
  else if !r.subres then [Ev.destroyRes r.rid]
  else []

/-- `FrameGraph::execute` (FrameGraph.cpp, lines 155-192), translated
control-flow-faithfully: outer marker; for each pass in declaration order, if
not culled: push its marker, devirtualize resources with `first == node`,
invoke the executor, destroy resources with `last == node`, pop; then flush,
pop the outer marker, and reset. -/
def executeRun (passes : List XPass) (resources : List XResource) : List Ev :=
  Ev.pushMarker "FrameGraph" ::
  (passes.flatMap (fun node =>
    if node.culled = true then []
    else
      Ev.pushMarker node.name ::
      (resources.flatMap (fun r =>
        if r.first == some node.pid then devirtualizeEvents r else []) ++
       Ev.execPass node.pid ::
       (resources.flatMap (fun r =>
         if r.last == some node.pid then destroyEvents r else []) ++
        [Ev.popMarker]))))
  ++ [Ev.flush, Ev.popMarker, Ev.resetAll]

/-- The trace shape C3 claims, written from the claim's words: skip culled
passes; for every non-culled pass, marker push, then all devirtualizations of
resources whose `first` is that pass, then the executor, then all destructions
of resources whose `last` is that pass, then marker pop; finally flush, outer
pop, reset. -/
def executeSpec (passes : List XPass) (resources : List XResource) : List Ev :=
  [Ev.pushMarker "FrameGraph"] ++
  ((passes.filter (fun p => !p.culled)).flatMap (fun p =>
    [Ev.pushMarker p.name] ++
    (resources.filter (fun r => r.first == some p.pid)).flatMap devirtualizeEvents ++
    [Ev.execPass p.pid] ++
    (resources.filter (fun r => r.last == some p.pid)).flatMap destroyEvents ++
    [Ev.popMarker])) ++
  [Ev.flush, Ev.popMarker, Ev.resetAll]

theorem flatMap_guard_filter {α β : Type} (l : List α) (p : α → Bool) (f : α → List β) :
    (l.flatMap (fun a => if p a = true then f a else [])) = (l.filter p).flatMap f := by
  induction l with
  | nil => rfl
  | cons x xs ih =>
    by_cases h : p x = true <;> simp [h, ih]

theorem flatMap_skip_filter {α β : Type} (l : List α) (p : α → Bool) (f : α → List β) :
    (l.flatMap (fun a => if p a = true then [] else f a))
      = (l.filter (fun a => !p a)).flatMap f := by
  induction l with
  | nil => rfl
  | cons x xs ih =>
    by_cases h : p x = true <;> simp [h, ih]

/-- C3: `execute` visits passes in declaration order, skips culled passes, and
for every non-culled pass pushes its group marker, devirtualizes every resource
whose `first` equals that pass, invokes the pass executor, destroys every
resource whose `last` equals that pass, and pops the marker; after all passes
it flushes the driver, pops the outer "FrameGraph" marker, and resets. -/
theorem executeRun_eq_executeSpec (passes : List XPass) (resources : List XResource) :
    executeRun passes resources = executeSpec passes resources := by
  unfold executeRun executeSpec
  rw [flatMap_skip_filter]
  simp only [flatMap_guard_filter, List.append_assoc, List.cons_append,
    List.nil_append, List.singleton_append]

theorem count_flatMap {α β : Type} [BEq β] (l : List α) (f : α → List β) (b : β) :
    ((l.flatMap f).count b) = (l.map (fun a => (f a).count b)).sum := by
  induction l with
  | nil => rfl
  | cons x xs ih => simp [List.count_append, ih]

theorem count_create_devirt (resources : List XResource) (pid rid : Nat) :
    ((resources.flatMap (fun r =>
        if r.first == some pid then devirtualizeEvents r else [])).count (Ev.createRes rid))
    = resources.countP (fun r =>
        (r.first == some pid && (!r.imported && !r.subres)) && r.rid == rid) := by
  induction resources with
  | nil => rfl
  | cons r rs ih =>
    simp only [List.flatMap_cons, List.count_append, List.countP_cons, ih]
    cases hf : (r.first == some pid) <;> cases hi : r.imported <;> cases hs : r.subres <;>
      by_cases hd : r.rid = rid <;>
        simp [devirtualizeEvents, hf, hi, hs, hd, List.count_cons, Nat.add_comm]

theorem count_create_destroyPart (resources : List XResource) (pid rid : Nat) :
    ((resources.flatMap (fun r =>
        if r.last == some pid then destroyEvents r else [])).count (Ev.createRes rid)) = 0 := by
  induction resources with
  | nil => rfl
  | cons r rs ih =>
    simp only [List.flatMap_cons, List.count_append, ih]
    cases hf : (r.last == some pid) <;> cases hi : r.imported <;> cases hs : r.subres <;>
      simp [destroyEvents, hf, hi, hs, List.count_cons]

theorem count_destroy_devirtPart (resources : List XResource) (pid rid : Nat) :
    ((resources.flatMap (fun r =>
        if r.first == some pid then devirtualizeEvents r else [])).count (Ev.destroyRes rid))
    = 0 := by
  induction resources with
  | nil => rfl
  | cons r rs ih =>
    simp only [List.flatMap_cons, List.count_append, ih]
    cases hf : (r.first == some pid) <;> cases hi : r.imported <;> cases hs : r.subres <;>
      simp [devirtualizeEvents, hf, hi, hs, List.count_cons]

theorem count_destroy_destroyPart (resources : List XResource) (pid rid : Nat) :
    ((resources.flatMap (fun r =>
        if r.last == some pid then destroyEvents r else [])).count (Ev.destroyRes rid))
    = resources.countP (fun r =>
        (r.last == some pid && (!r.imported && !r.subres)) && r.rid == rid) := by
  induction resources with
  | nil => rfl
  | cons r rs ih =>
    simp only [List.flatMap_cons, List.count_append, List.countP_cons, ih]
    cases hf : (r.last == some pid) <;> cases hi : r.imported <;> cases hs : r.subres <;>
      by_cases hd : r.rid = rid <;>
        simp [destroyEvents, hf, hi, hs, hd, List.count_cons, Nat.add_comm]

theorem count_create_executeRun (P : List XPass) (R : List XResource) (rid : Nat) :
    ((executeRun P R).count (Ev.createRes rid))
    = (P.map (fun p => if p.culled = true then 0 else
        R.countP (fun r =>
          (r.first == some p.pid && (!r.imported && !r.subres)) && r.rid == rid))).sum := by
  have e1 : ∀ s, ((Ev.createRes rid == Ev.pushMarker s) : Bool) = false := fun _ => rfl
  have e2 : ((Ev.createRes rid == Ev.flush) : Bool) = false := rfl
  have e3 : ((Ev.createRes rid == Ev.popMarker) : Bool) = false := rfl
  have e4 : ((Ev.createRes rid == Ev.resetAll) : Bool) = false := rfl
  have e5 : ∀ i, ((Ev.createRes rid == Ev.execPass i) : Bool) = false := fun _ => rfl
  have f1 : ∀ s, ((Ev.pushMarker s == Ev.createRes rid) : Bool) = false := fun _ => rfl
  have f2 : ((Ev.flush == Ev.createRes rid) : Bool) = false := rfl
  have f3 : ((Ev.popMarker == Ev.createRes rid) : Bool) = false := rfl
  have f4 : ((Ev.resetAll == Ev.createRes rid) : Bool) = false := rfl
  have f5 : ∀ i, ((Ev.execPass i == Ev.createRes rid) : Bool) = false := fun _ => rfl
  unfold executeRun
  simp only [List.count_cons, List.count_append, count_flatMap, List.count_nil,
    e1, e2, e3, e4, e5, f1, f2, f3, f4, f5,
    Bool.false_eq_true, if_false, Nat.add_zero, Nat.zero_add]
  refine congrArg List.sum (List.map_congr_left ?_)
  intro p _
  by_cases hc : p.culled = true
  · simp [hc]
  · rw [if_neg hc, if_neg hc]
    simp only [List.count_cons, List.count_append, count_create_devirt,
      count_create_destroyPart, List.count_nil, e1, e5, f1, f3, f5,
      Bool.false_eq_true, if_false, Nat.add_zero, Nat.zero_add]

theorem count_destroy_executeRun (P : List XPass) (R : List XResource) (rid : Nat) :
    ((executeRun P R).count (Ev.destroyRes rid))
    = (P.map (fun p => if p.culled = true then 0 else
        R.countP (fun r =>
          (r.last == some p.pid && (!r.imported && !r.subres)) && r.rid == rid))).sum := by
  have e1 : ∀ s, ((Ev.destroyRes rid == Ev.pushMarker s) : Bool) = false := fun _ => rfl
  have e2 : ((Ev.destroyRes rid == Ev.flush) : Bool) = false := rfl
  have e3 : ((Ev.destroyRes rid == Ev.popMarker) : Bool) = false := rfl
  have e4 : ((Ev.destroyRes rid == Ev.resetAll) : Bool) = false := rfl
  have e5 : ∀ i, ((Ev.destroyRes rid == Ev.execPass i) : Bool) = false := fun _ => rfl
  have f1 : ∀ s, ((Ev.pushMarker s == Ev.destroyRes rid) : Bool) = false := fun _ => rfl
  have f2 : ((Ev.flush == Ev.destroyRes rid) : Bool) = false := rfl
  have f3 : ((Ev.popMarker == Ev.destroyRes rid) : Bool) = false := rfl
  have f4 : ((Ev.resetAll == Ev.destroyRes rid) : Bool) = false := rfl
  have f5 : ∀ i, ((Ev.execPass i == Ev.destroyRes rid) : Bool) = false := fun _ => rfl
  unfold executeRun
  simp only [List.count_cons, List.count_append, count_flatMap, List.count_nil,
    e1, e2, e3, e4, e5, f1, f2, f3, f4, f5,
    Bool.false_eq_true, if_false, Nat.add_zero, Nat.zero_add]
  refine congrArg List.sum (List.map_congr_left ?_)
  intro p _
  by_cases hc : p.culled = true
  · simp [hc]
  · rw [if_neg hc, if_neg hc]
    simp only [List.count_cons, List.count_append, count_destroy_devirtPart,
      count_destroy_destroyPart, List.count_nil, e1, e5, f1, f3, f5,
      Bool.false_eq_true, if_false, Nat.add_zero, Nat.zero_add]

theorem sum_pass_counts (P : List XPass) (R : List XResource) (r : XResource)
    (sel : XResource → Option Nat) (rid : Nat)
    (hr : R.filter (fun s => s.rid == rid) = [r]) :
    (P.map (fun p => if p.culled = true then 0 else
        R.countP (fun s =>
          (sel s == some p.pid && (!s.imported && !s.subres)) && s.rid == rid))).sum
    = P.countP (fun p =>
        !p.culled && (sel r == some p.pid && (!r.imported && !r.subres))) := by
  have hin : ∀ pid : Nat,
      R.countP (fun s => (sel s == some pid && (!s.imported && !s.subres)) && s.rid == rid)
      = if (sel r == some pid && (!r.imported && !r.subres)) = true then 1 else 0 := by
    intro pid
    have hf := List.countP_filter
      (fun s => sel s == some pid && (!s.imported && !s.subres))
      (fun s => s.rid == rid) R
    rw [hr] at hf
    rw [← hf]
    simp [List.countP_cons]
  induction P with
  | nil => rfl
  | cons p ps ih =>
    simp only [List.map_cons, List.sum_cons, List.countP_cons]
    rw [ih, hin p.pid]
    by_cases hcul : p.culled = true <;>
      by_cases hb : (sel r == some p.pid && (!r.imported && !r.subres)) = true <;>
        simp [hcul, hb, Nat.add_comm]

/-- C7: across one `execute`, a non-imported root resource whose `first` and
`last` passes each occur exactly once (and non-culled) in the pass list receives
exactly one allocator `create` and one `destroy`; an imported resource receives
neither; a non-imported sub-resource receives neither and instead devirtualizes
by copying the backing from its parent. `hr` says `r` is the unique resource
with its `rid`. -/
theorem executeRun_allocator_balance (P : List XPass) (R : List XResource) (r : XResource)
    (hr : R.filter (fun s => s.rid == r.rid) = [r]) :
    (∀ p0 q0 : Nat, r.imported = false → r.subres = false →
       r.first = some p0 → r.last = some q0 →
       P.countP (fun p => !p.culled && p.pid == p0) = 1 →
       P.countP (fun p => !p.culled && p.pid == q0) = 1 →
       (executeRun P R).count (Ev.createRes r.rid) = 1 ∧
       (executeRun P R).count (Ev.destroyRes r.rid) = 1) ∧
    (r.imported = true →
       (executeRun P R).count (Ev.createRes r.rid) = 0 ∧
       (executeRun P R).count (Ev.destroyRes r.rid) = 0) ∧
    (r.imported = false → r.subres = true →
       (executeRun P R).count (Ev.createRes r.rid) = 0 ∧
       (executeRun P R).count (Ev.destroyRes r.rid) = 0 ∧
       devirtualizeEvents r = [Ev.copyFromParent r.rid]) := by
  have hc := count_create_executeRun P R r.rid
  have hd := count_destroy_executeRun P R r.rid
  have hsf := sum_pass_counts P R r (fun s => s.first) r.rid hr
  have hsl := sum_pass_counts P R r (fun s => s.last) r.rid hr
  refine ⟨?_, ?_, ?_⟩
  · intro p0 q0 himp hsub hfirst hlast hp hq
    constructor
    · rw [hc, hsf]
      rw [← hp]
      apply List.countP_congr
      intro p _
      simp only [hfirst, himp, hsub, Bool.not_false, Bool.and_true]
      rw [Bool.eq_iff_iff]
      simp only [Bool.and_eq_true, beq_iff_eq, Option.some.injEq, iff_true]
      constructor <;> rintro ⟨h1, h2⟩ <;> exact ⟨h1, h2.symm⟩
    · rw [hd, hsl]
      rw [← hq]
      apply List.countP_congr
      intro p _
      simp only [hlast, himp, hsub, Bool.not_false, Bool.and_true]
      rw [Bool.eq_iff_iff]
      simp only [Bool.and_eq_true, beq_iff_eq, Option.some.injEq, iff_true]
      constructor <;> rintro ⟨h1, h2⟩ <;> exact ⟨h1, h2.symm⟩
  · intro himp
    constructor
    · rw [hc, hsf]
      simp only [himp, Bool.not_true, Bool.false_and, Bool.and_false, List.countP_false]
      rfl
    · rw [hd, hsl]
      simp only [himp, Bool.not_true, Bool.false_and, Bool.and_false, List.countP_false]
      rfl
  · intro himp hsub
    refine ⟨?_, ?_, ?_⟩
    · rw [hc, hsf]
      simp only [hsub, Bool.not_true, Bool.and_false, List.countP_false]
      rfl
    · rw [hd, hsl]
      simp only [hsub, Bool.not_true, Bool.and_false, List.countP_false]
      rfl
    · simp [devirtualizeEvents, himp, hsub]

/-- Witness for C7 at a concrete input: one non-culled pass, one non-imported
root resource with that pass as both `first` and `last`. -/
theorem executeRun_allocator_balance_witness :
    ([(⟨0, false, false, some 0, some 0⟩ : XResource)].filter
        (fun s => s.rid == (⟨0, false, false, some 0, some 0⟩ : XResource).rid)
      = [⟨0, false, false, some 0, some 0⟩]) ∧
    ((executeRun [⟨0, "A", false⟩] [⟨0, false, false, some 0, some 0⟩]).count
        (Ev.createRes 0) = 1 ∧
     (executeRun [⟨0, "A", false⟩] [⟨0, false, false, some 0, some 0⟩]).count
        (Ev.destroyRes 0) = 1) :=
  ⟨by decide,
   (executeRun_allocator_balance [⟨0, "A", false⟩] [⟨0, false, false, some 0, some 0⟩]
      ⟨0, false, false, some 0, some 0⟩ (by decide)).1 0 0 rfl rfl rfl rfl
      (by decide) (by decide)⟩

/-!
Cluster 2 models `Resource<R>::resolveUsage` (details/Resource.h, lines
182-203), the usage-resolution phase of `compile` (FrameGraph.cpp, lines
147-149), and `ImportedResource::connect` (Resource.h, lines 255-273). `Usage`
bitsets are `Nat` with bitwise OR; edges carry their graph endpoints so that
validity (both endpoints non-culled) is decidable.
-/

/-- A typed resource edge (`Resource<R>::ResourceEdge`, Resource.h, lines
137-144): dependency-graph endpoints plus the `Usage` payload. -/
structure ResourceEdge where
  fromNode : Nat
  toNode : Nat
  usage : Nat
  deriving Repr, DecidableEq

/-- Modelled from the spec: `DependencyGraph` (details/DependencyGraph.h) is
not under src/. Only culling results matter here: `culled` lists the culled
node ids. -/
structure DepGraph where
  culled : List Nat
  deriving Repr, DecidableEq

/-- Modelled from the spec (§4.A): "`is_edge_valid(edge)`: true iff both
endpoint nodes survived culling". -/
def DepGraph.isEdgeValid (g : DepGraph) (e : ResourceEdge) : Bool :=
  !(g.culled.contains e.fromNode) && !(g.culled.contains e.toNode)

/-- The usage-relevant state of a `Resource<R>` (Resource.h, lines 119-134):
its parent (by resource index; `parent = self index` for roots) and its
aggregated `usage` bitset. Regular resources start with `usage = 0`
(`Usage usage{}`); `ImportedResource` starts with the declared capability
(Resource.h, lines 239-243). -/
structure UResource where
  parent : Nat
  usage : Nat
  deriving Repr, DecidableEq

/-- The reader-edge loop of `resolveUsage` (Resource.h, lines 185-191):
`usage |= edge->usage` for every edge with `graph.isEdgeValid(edge)`. -/
def orValidEdges (g : DepGraph) (edges : List ResourceEdge) (u : Nat) : Nat :=
  edges.foldl (fun acc e => if g.isEdgeValid e then acc ||| e.usage else acc) u

/-- Usage payload of an optional writer edge. -/
def writerOr : Option ResourceEdge → Nat
  | none => 0
  | some w => w.usage

/-- The `while (p != p->parent)` loop of `resolveUsage` (Resource.h, lines
197-202): walk the parent chain above `p`, ORing `u` into each ancestor.
`fuel` bounds the walk; the call site passes the resource count, which is
enough fuel whenever parent indices do not increase. -/
def propagateUp (u : Nat) : Nat → Nat → List UResource → List UResource
  | 0, _, res => res
  | fuel + 1, p, res =>
    match res[p]? with
    | none => res
    | some rp =>
      if rp.parent = p then res
      else
        match res[rp.parent]? with
        | none => res
        | some rq =>
          propagateUp u fuel rp.parent (res.set rp.parent ⟨rq.parent, rq.usage ||| u⟩)

/-- `Resource<R>::resolveUsage` (Resource.h, lines 182-203) acting on the
resource list at index `rid`: OR every valid reader edge and the writer edge
(the writer unconditionally) into the resource's usage, then propagate the
result up the parent chain. -/
def resolveUsage (g : DepGraph) (res : List UResource) (rid : Nat)
    (edges : List ResourceEdge) (writer : Option ResourceEdge) : List UResource :=
  match res[rid]? with
  | none => res
  | some r =>
    let u1 := orValidEdges g edges r.usage
    let u2 := match writer with
      | none => u1
      | some w => u1 ||| w.usage
    propagateUp u2 res.length rid (res.set rid ⟨r.parent, u2⟩)

/-- Modelled from the spec (§4.C, ResourceNode.h not under src/): a
ResourceNode knows its resource (`rid`), its cached reader edges, and its
single writer edge or none. -/
structure RNode where
  rid : Nat
  readers : List ResourceEdge
  writer : Option ResourceEdge
  deriving Repr, DecidableEq

/-- Usage-resolution phase of `compile` (FrameGraph.cpp, lines 147-149 with
spec §4.E step 3 and §4.C): for every ResourceNode in order, culled or not,
delegate to the backing resource's `resolveUsage` with the node's cached
reader edges and writer. -/
def resolveAllUsages (g : DepGraph) (nodes : List RNode) (res : List UResource) :
    List UResource :=
  nodes.foldl (fun acc n => resolveUsage g acc n.rid n.readers n.writer) res

/-- Parent index of every resource. -/
def parentsOf (res : List UResource) : List Nat := res.map UResource.parent

/-- Usage field at index `i` (0 when out of range). -/
def usageAt (res : List UResource) (i : Nat) : Nat :=
  ((res[i]?).map UResource.usage).getD 0

/-- Ancestor chain of resource `p` (inclusive), following parent indices with
the same stopping conditions as `propagateUp`. -/
def ancChain (ps : List Nat) : Nat → Nat → List Nat
  | 0, p => [p]
  | fuel + 1, p =>
    match ps[p]? with
    | none => [p]
    | some q =>
      if q = p then [p]
      else
        match ps[q]? with
        | none => [p]
        | some _ => p :: ancChain ps fuel q

/-- Contribution of one ResourceNode to the aggregate: its valid reader edges'
usages ORed with its writer's usage. -/
def contribOf (g : DepGraph) (n : RNode) : Nat :=
  orValidEdges g n.readers 0 ||| writerOr n.writer

/-- OR of a list of usage bitsets. -/
def listOrU (l : List Nat) : Nat := l.foldl (fun a b => a ||| b) 0

/-!
`ImportedResource::connect` (Resource.h, lines 255-273) and the base
`Resource<R>::connect` it delegates to (lines 158-175). The edge bookkeeping on
the ResourceNode (`setWriter` / `addReader`) is modelled from the spec (§4.C).
-/

/-- Edge state of one ResourceNode: outgoing reader edges and the single
incoming writer edge. -/
structure NodeEdges where
  readers : List ResourceEdge
  writer : Option ResourceEdge
  deriving Repr, DecidableEq

/-- `Resource<R>::connect` for a write (pass node → resource node), Resource.h
lines 158-165: records the edge as the node's incoming writer and returns
true. -/
def resourceConnectWrite (node : NodeEdges) (e : ResourceEdge) : Bool × NodeEdges :=
  (true, ⟨node.readers, some e⟩)

/-- `Resource<R>::connect` for a read (resource node → pass node), Resource.h
lines 168-175: appends the edge to the node's outgoing readers and returns
true. -/
def resourceConnectRead (node : NodeEdges) (e : ResourceEdge) : Bool × NodeEdges :=
  (true, ⟨node.readers ++ [e], node.writer⟩)

/-- `ImportedResource::connect`, write overload (Resource.h, lines 255-263):
a non-fatal assertion rejects the connect, leaving the node untouched, unless
the requested usage is a bitwise subset of the capability usage
(`(u & this->usage) == u`); otherwise it delegates to the base connect. -/
def importedConnectWrite (cap : Nat) (node : NodeEdges) (e : ResourceEdge) :
    Bool × NodeEdges :=
  if !((e.usage &&& cap) == e.usage) then (false, node)
  else resourceConnectWrite node e

/-- `ImportedResource::connect`, read overload (Resource.h, lines 265-273). -/
def importedConnectRead (cap : Nat) (node : NodeEdges) (e : ResourceEdge) :
    Bool × NodeEdges :=
  if !((e.usage &&& cap) == e.usage) then (false, node)
  else resourceConnectRead node e

/-- C6: a connect (read or write) on an imported resource with requested usage
`u` returns false and adds no edge precisely when `u` is not a bitwise subset
of the imported capability usage; when it is a subset, the connect delegates to
the base `Resource` connect, which records the edge and returns true. -/
theorem importedConnect_subset_check (cap : Nat) (node : NodeEdges) (e : ResourceEdge) :
    ((importedConnectWrite cap node e = (false, node)) ↔ ¬ (e.usage &&& cap = e.usage)) ∧
    ((e.usage &&& cap = e.usage) →
      importedConnectWrite cap node e = (true, ⟨node.readers, some e⟩)) ∧
    ((importedConnectRead cap node e = (false, node)) ↔ ¬ (e.usage &&& cap = e.usage)) ∧
    ((e.usage &&& cap = e.usage) →
      importedConnectRead cap node e = (true, ⟨node.readers ++ [e], node.writer⟩)) := by
  unfold importedConnectWrite importedConnectRead resourceConnectWrite resourceConnectRead
  by_cases h : e.usage &&& cap = e.usage
  · simp [h]
  · simp [h]

/-- Witness for C6 at a concrete input (capability 1, requested usage 1). -/
theorem importedConnect_subset_check_witness :
    ((importedConnectWrite 1 ⟨[], none⟩ ⟨0, 1, 1⟩ = (false, ⟨[], none⟩)) ↔
      ¬ ((1 : Nat) &&& 1 = 1)) ∧
    (((1 : Nat) &&& 1 = 1) →
      importedConnectWrite 1 ⟨[], none⟩ ⟨0, 1, 1⟩ = (true, ⟨[], some ⟨0, 1, 1⟩⟩)) ∧
    ((importedConnectRead 1 ⟨[], none⟩ ⟨0, 1, 1⟩ = (false, ⟨[], none⟩)) ↔
      ¬ ((1 : Nat) &&& 1 = 1)) ∧
    (((1 : Nat) &&& 1 = 1) →
      importedConnectRead 1 ⟨[], none⟩ ⟨0, 1, 1⟩ = (true, ⟨[⟨0, 1, 1⟩], none⟩)) :=
  importedConnect_subset_check 1 ⟨[], none⟩ ⟨0, 1, 1⟩

end FG
namespace FG

theorem orValidEdges_factor (g : DepGraph) (es : List ResourceEdge) :
    ∀ u : Nat, orValidEdges g es u = u ||| orValidEdges g es 0 := by
  induction es with
  | nil => intro u; simp [orValidEdges]
  | cons e es ih =>
    intro u
    unfold orValidEdges
    simp only [List.foldl_cons]
    by_cases h : g.isEdgeValid e = true
    · rw [if_pos h, if_pos h]
      show orValidEdges g es (u ||| e.usage) = u ||| orValidEdges g es (0 ||| e.usage)
      rw [ih (u ||| e.usage), ih (0 ||| e.usage), Nat.zero_or, Nat.lor_assoc]
    · rw [if_neg h, if_neg h]
      exact ih u

theorem foldl_lor_factor (l : List Nat) :
    ∀ a : Nat, l.foldl (fun x y => x ||| y) a = a ||| listOrU l := by
  induction l with
  | nil => intro a; simp [listOrU]
  | cons x l ih =>
    intro a
    show l.foldl (fun x y => x ||| y) (a ||| x) = a ||| listOrU (x :: l)
    rw [ih (a ||| x)]
    show a ||| x ||| listOrU l = a ||| List.foldl (fun x y => x ||| y) (0 ||| x) l
    rw [ih (0 ||| x), Nat.zero_or, Nat.lor_assoc]

theorem listOrU_cons (x : Nat) (l : List Nat) : listOrU (x :: l) = x ||| listOrU l := by
  show List.foldl (fun a b => a ||| b) (0 ||| x) l = x ||| listOrU l
  rw [foldl_lor_factor l (0 ||| x), Nat.zero_or]

theorem length_propagateUp (u : Nat) : ∀ (fuel p : Nat) (res : List UResource),
    (propagateUp u fuel p res).length = res.length := by
  intro fuel
  induction fuel with
  | zero => intro p res; rfl
  | succ f ih =>
    intro p res
    unfold propagateUp
    cases hp : res[p]? with
    | none => rfl
    | some rp =>
      by_cases hq : rp.parent = p
      · simp [hq]
      · cases hr : res[rp.parent]? with
        | none => simp [hq, hr]
        | some rq =>
          simp only [hq, hr, if_neg hq, if_false]
          rw [ih]
          exact List.length_set _ _ _

theorem getElem?_parentsOf (res : List UResource) (i : Nat) :
    (parentsOf res)[i]? = (res[i]?).map UResource.parent := by
  unfold parentsOf
  exact List.getElem?_map _ _ _

theorem parentsOf_set_preserve (res : List UResource) (i : Nat) (rq : UResource) (v : Nat)
    (h : res[i]? = some rq) :
    parentsOf (res.set i ⟨rq.parent, v⟩) = parentsOf res := by
  unfold parentsOf
  rw [List.map_set]
  have hi : i < (List.map UResource.parent res).length := by
    rw [List.length_map]
    exact (List.getElem?_eq_some_iff.mp h).1
  have hv : (List.map UResource.parent res)[i]? = some rq.parent := by
    rw [List.getElem?_map, h]
    rfl
  apply List.ext_getElem?
  intro j
  by_cases hij : i = j
  · subst hij
    rw [List.getElem?_set_self hi, hv]
  · rw [List.getElem?_set_ne hij]

theorem parentsOf_propagateUp (u : Nat) : ∀ (fuel p : Nat) (res : List UResource),
    parentsOf (propagateUp u fuel p res) = parentsOf res := by
  intro fuel
  induction fuel with
  | zero => intro p res; rfl
  | succ f ih =>
    intro p res
    unfold propagateUp
    cases hp : res[p]? with
    | none => rfl
    | some rp =>
      by_cases hq : rp.parent = p
      · simp [hq]
      · cases hr : res[rp.parent]? with
        | none => simp [hq, hr]
        | some rq =>
          simp only [hq, hr, if_neg hq, if_false]
          rw [ih, parentsOf_set_preserve res rp.parent rq _ hr]

theorem length_resolveUsage (g : DepGraph) (res : List UResource) (rid : Nat)
    (edges : List ResourceEdge) (writer : Option ResourceEdge) :
    (resolveUsage g res rid edges writer).length = res.length := by
  unfold resolveUsage
  cases h : res[rid]? with
  | none => rfl
  | some r =>
    simp only []
    rw [length_propagateUp, List.length_set]

theorem parentsOf_resolveUsage (g : DepGraph) (res : List UResource) (rid : Nat)
    (edges : List ResourceEdge) (writer : Option ResourceEdge) :
    parentsOf (resolveUsage g res rid edges writer) = parentsOf res := by
  unfold resolveUsage
  cases h : res[rid]? with
  | none => rfl
  | some r =>
    simp only []
    rw [parentsOf_propagateUp, parentsOf_set_preserve res rid r _ h]

theorem usageAt_set (res : List UResource) (i : Nat) (r0 : UResource) (pv v : Nat)
    (h : res[i]? = some r0) (j : Nat) :
    usageAt (res.set i ⟨pv, v⟩) j = if j = i then v else usageAt res j := by
  unfold usageAt
  have hi : i < res.length := (List.getElem?_eq_some_iff.mp h).1
  by_cases hij : j = i
  · subst hij
    rw [List.getElem?_set_self hi, if_pos rfl]
    rfl
  · rw [List.getElem?_set_ne (fun he => hij he.symm), if_neg hij]

theorem ancChain_cons (ps : List Nat) (fuel p : Nat) :
    ancChain ps fuel p = p :: (ancChain ps fuel p).tail := by
  cases fuel with
  | zero => rfl
  | succ f =>
    unfold ancChain
    cases h : ps[p]? with
    | none => rfl
    | some q =>
      by_cases hq : q = p
      · simp [hq]
      · cases h2 : ps[q]? with
        | none => simp [hq, h2]
        | some x => simp [hq, h2]

theorem mem_ancChain_self (ps : List Nat) (fuel p : Nat) : p ∈ ancChain ps fuel p := by
  rw [ancChain_cons]
  exact List.mem_cons_self _ _

theorem mem_ancChain_tail_iff (ps : List Nat) (fuel p r : Nat) (hr : r ≠ p) :
    r ∈ (ancChain ps fuel p).tail ↔ r ∈ ancChain ps fuel p := by
  constructor
  · intro h
    rw [ancChain_cons]
    exact List.mem_cons_of_mem _ h
  · intro h
    rw [ancChain_cons] at h
    rcases List.mem_cons.mp h with h1 | h1
    · exact absurd h1 hr
    · exact h1

theorem propagateUp_succ (u f p : Nat) (res : List UResource) :
    propagateUp u (f + 1) p res =
      match res[p]? with
      | none => res
      | some rp =>
        if rp.parent = p then res
        else
          match res[rp.parent]? with
          | none => res
          | some rq =>
            propagateUp u f rp.parent (res.set rp.parent ⟨rq.parent, rq.usage ||| u⟩) := rfl

theorem ancChain_succ (ps : List Nat) (f p : Nat) :
    ancChain ps (f + 1) p =
      match ps[p]? with
      | none => [p]
      | some q =>
        if q = p then [p]
        else
          match ps[q]? with
          | none => [p]
          | some _ => p :: ancChain ps f q := rfl

theorem usageAt_eq_of_getElem? (res : List UResource) (i : Nat) (r0 : UResource)
    (h : res[i]? = some r0) : usageAt res i = r0.usage := by
  unfold usageAt
  rw [h]
  rfl

theorem usageAt_propagateUp (u : Nat) : ∀ (fuel p : Nat) (res : List UResource) (r : Nat),
    usageAt (propagateUp u fuel p res) r =
      if r ∈ (ancChain (parentsOf res) fuel p).tail
      then usageAt res r ||| u else usageAt res r := by
  intro fuel
  induction fuel with
  | zero =>
    intro p res r
    simp [propagateUp, ancChain]
  | succ f ih =>
    intro p res r
    rw [propagateUp_succ, ancChain_succ, getElem?_parentsOf]
    cases hp : res[p]? with
    | none => simp
    | some rp =>
      simp only [Option.map_some']
      by_cases hq : rp.parent = p
      · simp [hq]
      · simp only [if_neg hq]
        rw [getElem?_parentsOf]
        cases hr : res[rp.parent]? with
        | none => simp
        | some rq =>
          simp only [Option.map_some', List.tail_cons]
          rw [ih rp.parent (res.set rp.parent ⟨rq.parent, rq.usage ||| u⟩) r]
          rw [parentsOf_set_preserve res rp.parent rq _ hr]
          rw [usageAt_set res rp.parent rq _ _ hr r]
          by_cases hrq : r = rp.parent
          · rw [if_pos hrq]
            have hur : usageAt res r = rq.usage := by
              rw [hrq]
              exact usageAt_eq_of_getElem? res rp.parent rq hr
            have hmem : r ∈ ancChain (parentsOf res) f rp.parent := by
              rw [hrq]
              exact mem_ancChain_self _ _ _
            rw [if_pos hmem, hur]
            by_cases hmem2 : r ∈ (ancChain (parentsOf res) f rp.parent).tail
            · rw [if_pos hmem2, Nat.lor_assoc, Nat.or_self]
            · rw [if_neg hmem2]
          · rw [if_neg hrq]
            by_cases hmem : r ∈ ancChain (parentsOf res) f rp.parent
            · rw [if_pos ((mem_ancChain_tail_iff (parentsOf res) f rp.parent r hrq).mpr hmem),
                if_pos hmem]
            · rw [if_neg (fun hc =>
                  hmem ((mem_ancChain_tail_iff (parentsOf res) f rp.parent r hrq).mp hc)),
                if_neg hmem]

theorem usageAt_resolveUsage (g : DepGraph) (res : List UResource) (rid : Nat)
    (edges : List ResourceEdge) (writer : Option ResourceEdge)
    (r0 : UResource) (h : res[rid]? = some r0) (r : Nat) :
    usageAt (resolveUsage g res rid edges writer) r =
      if r ∈ ancChain (parentsOf res) res.length rid
      then usageAt res r |||
        (usageAt res rid ||| (orValidEdges g edges 0 ||| writerOr writer))
      else usageAt res r := by
  have hrid : usageAt res rid = r0.usage := usageAt_eq_of_getElem? res rid r0 h
  have hu2 : (match writer with
      | none => orValidEdges g edges r0.usage
      | some w => orValidEdges g edges r0.usage ||| w.usage)
      = usageAt res rid ||| (orValidEdges g edges 0 ||| writerOr writer) := by
    cases writer with
    | none =>
      rw [hrid, orValidEdges_factor]
      show r0.usage ||| orValidEdges g edges 0
        = r0.usage ||| (orValidEdges g edges 0 ||| 0)
      rw [Nat.or_zero]
    | some w =>
      rw [hrid, orValidEdges_factor]
      show r0.usage ||| orValidEdges g edges 0 ||| w.usage
        = r0.usage ||| (orValidEdges g edges 0 ||| writerOr (some w))
      rw [Nat.lor_assoc]
      rfl
  unfold resolveUsage
  simp only [h]
  rw [usageAt_propagateUp]
  rw [parentsOf_set_preserve res rid r0 _ h]
  rw [usageAt_set res rid r0 _ _ h r]
  rw [hu2]
  by_cases hrq : r = rid
  · rw [if_pos hrq]
    have hmem : r ∈ ancChain (parentsOf res) res.length rid := by
      rw [hrq]
      exact mem_ancChain_self _ _ _
    rw [if_pos hmem]
    have habs : usageAt res r ||| (usageAt res rid ||| (orValidEdges g edges 0 ||| writerOr writer))
        = usageAt res rid ||| (orValidEdges g edges 0 ||| writerOr writer) := by
      rw [hrq, ← Nat.lor_assoc, Nat.or_self]
    rw [habs]
    by_cases hmem2 : r ∈ (ancChain (parentsOf res) res.length rid).tail
    · rw [if_pos hmem2, Nat.or_self]
    · rw [if_neg hmem2]
  · rw [if_neg hrq]
    by_cases hmem : r ∈ ancChain (parentsOf res) res.length rid
    · rw [if_pos ((mem_ancChain_tail_iff (parentsOf res) res.length rid r hrq).mpr hmem),
        if_pos hmem]
    · rw [if_neg (fun hc =>
          hmem ((mem_ancChain_tail_iff (parentsOf res) res.length rid r hrq).mp hc)),
        if_neg hmem]

/-- Well-formed parent table: a parent index never exceeds its child's index
(true by construction: `addSubResourceInternal` links a child to an
already-created parent, FrameGraph.cpp, lines 220-228). -/
def parentsWF (ps : List Nat) : Prop := ∀ (i q : Nat), ps[i]? = some q → q ≤ i

theorem ancChain_zero (ps : List Nat) (p : Nat) : ancChain ps 0 p = [p] := rfl

theorem mem_ancChain_le (ps : List Nat) (hwf : parentsWF ps) :
    ∀ (fuel p a : Nat), a ∈ ancChain ps fuel p → a ≤ p := by
  intro fuel
  induction fuel with
  | zero =>
    intro p a ha
    rw [ancChain_zero] at ha
    have h := List.mem_singleton.mp ha
    omega
  | succ f ih =>
    intro p a ha
    rw [ancChain_succ] at ha
    cases hp : ps[p]? with
    | none =>
      simp only [hp] at ha
      have h := List.mem_singleton.mp ha
      omega
    | some q =>
      simp only [hp] at ha
      by_cases hq : q = p
      · rw [if_pos hq] at ha
        have h := List.mem_singleton.mp ha
        omega
      · rw [if_neg hq] at ha
        cases h2 : ps[q]? with
        | none =>
          simp only [h2] at ha
          have h := List.mem_singleton.mp ha
          omega
        | some x =>
          simp only [h2] at ha
          rcases List.mem_cons.mp ha with rfl | ha
          · exact le_rfl
          · exact le_trans (ih q a ha) (hwf p q hp)

theorem ancChain_eq_of_le (ps : List Nat) (hwf : parentsWF ps) :
    ∀ (p f1 f2 : Nat), p ≤ f1 → p ≤ f2 → ancChain ps f1 p = ancChain ps f2 p := by
  intro p
  induction p using Nat.strong_induction_on with
  | _ p IH =>
    intro f1 f2 h1 h2
    cases f1 with
    | zero =>
      have hp0 : p = 0 := Nat.le_zero.mp h1
      subst hp0
      cases f2 with
      | zero => rfl
      | succ b =>
        rw [ancChain_zero, ancChain_succ]
        cases hp : ps[0]? with
        | none => rfl
        | some q =>
          have hq0 : q = 0 := Nat.le_zero.mp (hwf 0 q hp)
          subst hq0
          simp
    | succ a =>
      cases f2 with
      | zero =>
        have hp0 : p = 0 := Nat.le_zero.mp h2
        subst hp0
        rw [ancChain_zero, ancChain_succ]
        cases hp : ps[0]? with
        | none => rfl
        | some q =>
          have hq0 : q = 0 := Nat.le_zero.mp (hwf 0 q hp)
          subst hq0
          simp
      | succ b =>
        rw [ancChain_succ, ancChain_succ]
        cases hp : ps[p]? with
        | none => rfl
        | some q =>
          by_cases hq : q = p
          · simp [hq]
          · cases h2q : ps[q]? with
            | none => simp [hq, h2q]
            | some x =>
              have hqp : q < p := Nat.lt_of_le_of_ne (hwf p q hp) hq
              simp [hq, h2q, IH q hqp a b (by omega) (by omega)]

theorem chainC_trans (ps : List Nat) (hwf : parentsWF ps) :
    ∀ (p a c : Nat), a ∈ ancChain ps p p → c ∈ ancChain ps a a →
      c ∈ ancChain ps p p := by
  intro p
  induction p using Nat.strong_induction_on with
  | _ p IH =>
    intro a c ha hc
    cases hfp : p with
    | zero =>
      subst hfp
      rw [ancChain_zero] at ha
      rcases List.mem_singleton.mp ha with rfl
      exact hc
    | succ m =>
      subst hfp
      rw [ancChain_succ] at ha
      cases hp : ps[m + 1]? with
      | none =>
        simp only [hp] at ha
        rcases List.mem_singleton.mp ha with rfl
        exact hc
      | some q =>
        simp only [hp] at ha
        by_cases hq : q = m + 1
        · rw [if_pos hq] at ha
          rcases List.mem_singleton.mp ha with rfl
          exact hc
        · rw [if_neg hq] at ha
          cases h2 : ps[q]? with
          | none =>
            simp only [h2] at ha
            rcases List.mem_singleton.mp ha with rfl
            exact hc
          | some x =>
            simp only [h2] at ha
            have hqm : q ≤ m := by
              have := hwf (m + 1) q hp
              omega
            have hchain : ancChain ps m q = ancChain ps q q :=
              ancChain_eq_of_le ps hwf q m q hqm le_rfl
            have hgoal : ancChain ps (m + 1) (m + 1) = (m + 1) :: ancChain ps m q := by
              rw [ancChain_succ]
              simp only [hp]
              rw [if_neg hq]
              simp only [h2]
            rcases List.mem_cons.mp ha with rfl | ha2
            · exact hc
            · rw [hchain] at ha2
              have hcq := IH q (by omega) a c ha2 hc
              rw [hgoal]
              refine List.mem_cons.mpr (Or.inr ?_)
              rw [hchain]
              exact hcq

theorem mem_ancChain_trans (ps : List Nat) (hwf : parentsWF ps) (f : Nat)
    (p a c : Nat) (hp : p ≤ f) (ha : a ∈ ancChain ps f p) (hc : c ∈ ancChain ps f a) :
    c ∈ ancChain ps f p := by
  have hap : a ≤ p := mem_ancChain_le ps hwf f p a ha
  rw [ancChain_eq_of_le ps hwf p f p hp le_rfl] at ha ⊢
  rw [ancChain_eq_of_le ps hwf a f a (le_trans hap hp) le_rfl] at hc
  exact chainC_trans ps hwf p a c ha hc

theorem testBit_listOrU (l : List Nat) (b : Nat) :
    (listOrU l).testBit b = l.any (fun x => x.testBit b) := by
  induction l with
  | nil => exact Nat.zero_testBit b
  | cons x l ih =>
    rw [listOrU_cons, Nat.testBit_lor, ih]
    simp [List.any_cons]

theorem any_filterMap_ite {α : Type} (l : List α) (C : α → Prop) [DecidablePred C]
    (V : α → Nat) (q : Nat → Bool) :
    (l.filterMap (fun m => if C m then some (V m) else none)).any q
    = l.any (fun m => decide (C m) && q (V m)) := by
  induction l with
  | nil => rfl
  | cons x l ih =>
    by_cases h : C x <;> simp [h, ih]

theorem testBit_resolveAllUsages (g : DepGraph) (nodes : List RNode) :
    ∀ (res : List UResource),
    parentsWF (parentsOf res) →
    (∀ n ∈ nodes, n.rid < res.length) →
    ∀ (r b : Nat),
    ((usageAt (resolveAllUsages g nodes res) r).testBit b = true ↔
      ((usageAt res r).testBit b = true ∨
       ∃ m ∈ nodes, r ∈ ancChain (parentsOf res) res.length m.rid ∧
         ((usageAt res m.rid).testBit b = true ∨ (contribOf g m).testBit b = true))) := by
  induction nodes with
  | nil =>
    intro res hwf hr r b
    constructor
    · intro h
      exact Or.inl h
    · rintro (h | ⟨m, hm, h1⟩)
      · exact h
      · exact absurd hm (List.not_mem_nil m)
  | cons n ns ih =>
    intro res hwf hrids r b
    obtain ⟨r0, h0⟩ : ∃ r0, res[n.rid]? = some r0 :=
      ⟨_, List.getElem?_eq_getElem (hrids n (List.mem_cons_self n ns))⟩
    have hstep : ∀ i : Nat,
        ((usageAt (resolveUsage g res n.rid n.readers n.writer) i).testBit b = true ↔
          ((usageAt res i).testBit b = true ∨
           (i ∈ ancChain (parentsOf res) res.length n.rid ∧
            ((usageAt res n.rid).testBit b = true ∨ (contribOf g n).testBit b = true)))) := by
      intro i
      rw [usageAt_resolveUsage g res n.rid n.readers n.writer r0 h0 i]
      by_cases hmem : i ∈ ancChain (parentsOf res) res.length n.rid
      · rw [if_pos hmem]
        show ((usageAt res i ||| (usageAt res n.rid ||| contribOf g n)).testBit b = true ↔ _)
        simp only [Nat.testBit_lor, Bool.or_eq_true, hmem, true_and]
      · rw [if_neg hmem]
        simp [hmem]
    show ((usageAt (resolveAllUsages g ns
        (resolveUsage g res n.rid n.readers n.writer)) r).testBit b = true ↔ _)
    rw [ih (resolveUsage g res n.rid n.readers n.writer)
        (by rw [parentsOf_resolveUsage]; exact hwf)
        (by intro m hm; rw [length_resolveUsage]; exact hrids m (List.mem_cons_of_mem n hm))
        r b]
    simp only [parentsOf_resolveUsage, length_resolveUsage]
    constructor
    · rintro (hs | ⟨m, hm, hchr, hrest⟩)
      · rcases (hstep r).mp hs with hb | ⟨hmem, hrest⟩
        · exact Or.inl hb
        · exact Or.inr ⟨n, List.mem_cons_self n ns, hmem, hrest⟩
      · rcases hrest with hbit | hcb
        · rcases (hstep m.rid).mp hbit with hb | ⟨hmem2, hrest2⟩
          · exact Or.inr ⟨m, List.mem_cons_of_mem n hm, hchr, Or.inl hb⟩
          · refine Or.inr ⟨n, List.mem_cons_self n ns, ?_, hrest2⟩
            exact mem_ancChain_trans (parentsOf res) hwf res.length n.rid m.rid r
              (Nat.le_of_lt (hrids n (List.mem_cons_self n ns))) hmem2 hchr
        · exact Or.inr ⟨m, List.mem_cons_of_mem n hm, hchr, Or.inr hcb⟩
    · rintro (hb | ⟨m, hm, hchr, hrest⟩)
      · exact Or.inl ((hstep r).mpr (Or.inl hb))
      · rcases List.mem_cons.mp hm with rfl | hm2
        · exact Or.inl ((hstep r).mpr (Or.inr ⟨hchr, hrest⟩))
        · refine Or.inr ⟨m, hm2, hchr, ?_⟩
          exact hrest.imp (fun hb2 => (hstep m.rid).mpr (Or.inl hb2)) id

theorem usageAt_resolveAllUsages_formula (g : DepGraph) (nodes : List RNode)
    (res : List UResource) (hwf : parentsWF (parentsOf res))
    (hrids : ∀ n ∈ nodes, n.rid < res.length) (r : Nat) :
    usageAt (resolveAllUsages g nodes res) r =
      usageAt res r ||| listOrU (nodes.filterMap (fun m =>
        if r ∈ ancChain (parentsOf res) res.length m.rid
        then some (usageAt res m.rid ||| contribOf g m) else none)) := by
  apply Nat.eq_of_testBit_eq
  intro b
  rw [Bool.eq_iff_iff]
  rw [testBit_resolveAllUsages g nodes res hwf hrids r b]
  rw [Nat.testBit_lor, testBit_listOrU,
    any_filterMap_ite nodes (fun m => r ∈ ancChain (parentsOf res) res.length m.rid)
      (fun m => usageAt res m.rid ||| contribOf g m) (fun x => x.testBit b)]
  simp only [Bool.or_eq_true, List.any_eq_true, Bool.and_eq_true, decide_eq_true_iff,
    Nat.testBit_lor]

theorem orValidEdges_filter (g : DepGraph) (es : List ResourceEdge) :
    ∀ u : Nat, orValidEdges g es u
      = orValidEdges g (es.filter (fun e => g.isEdgeValid e)) u := by
  induction es with
  | nil => intro u; rfl
  | cons e es ih =>
    intro u
    show orValidEdges g es (if g.isEdgeValid e = true then u ||| e.usage else u)
      = orValidEdges g ((e :: es).filter (fun e => g.isEdgeValid e)) u
    by_cases h : g.isEdgeValid e = true
    · rw [if_pos h, List.filter_cons_of_pos h, ih (u ||| e.usage)]
      show orValidEdges g (es.filter (fun e => g.isEdgeValid e)) (u ||| e.usage)
        = orValidEdges g (es.filter (fun e => g.isEdgeValid e))
            (if g.isEdgeValid e = true then u ||| e.usage else u)
      rw [if_pos h]
    · rw [if_neg h, List.filter_cons_of_neg h]
      exact ih u

theorem length_parentsOf (res : List UResource) : (parentsOf res).length = res.length :=
  List.length_map _ _

theorem parent_mem_ancChain (ps : List Nat) (c p : Nat) (hc : ps[c]? = some p)
    (hne : p ≠ c) (hp : p < ps.length) (f : Nat) (hf : 1 ≤ f) :
    p ∈ ancChain ps f c := by
  obtain ⟨f', rfl⟩ : ∃ f', f = f' + 1 := ⟨f - 1, by omega⟩
  rw [ancChain_succ]
  simp only [hc]
  rw [if_neg hne]
  cases h2 : ps[p]? with
  | none =>
    exfalso
    rw [List.getElem?_eq_none_iff] at h2
    omega
  | some x =>
    simp only [h2]
    exact List.mem_cons_of_mem _ (mem_ancChain_self ps f' p)

/-- The usage the C4 claim predicts for resource `rid`: the OR of the valid
reader payloads and writer payloads over `rid`'s own versioned ResourceNodes
only (no initial usage, no sub-resource contributions). -/
def ownNodesUsage (g : DepGraph) (nodes : List RNode) (rid : Nat) : Nat :=
  listOrU ((nodes.filter (fun n => n.rid == rid)).map (contribOf g))

/-- C4 counterexample: a root resource (index 0) with a usage-free node, and a
sub-resource (index 1) whose node carries one valid read edge of usage 1. After
usage resolution the root's aggregated usage is 1 — the sub-resource's bit was
propagated up the parent chain — while the OR over the root's own nodes' edges
is 0, so the claim's equality fails. -/
theorem usage_aggregation_counterexample :
    usageAt (resolveAllUsages ⟨[]⟩ [⟨0, [], none⟩, ⟨1, [⟨0, 1, 1⟩], none⟩]
        [⟨0, 0⟩, ⟨0, 0⟩]) 0 = 1 ∧
    ownNodesUsage ⟨[]⟩ [⟨0, [], none⟩, ⟨1, [⟨0, 1, 1⟩], none⟩] 0 = 0 ∧
    ¬ (usageAt (resolveAllUsages ⟨[]⟩ [⟨0, [], none⟩, ⟨1, [⟨0, 1, 1⟩], none⟩]
        [⟨0, 0⟩, ⟨0, 0⟩]) 0
      = ownNodesUsage ⟨[]⟩ [⟨0, [], none⟩, ⟨1, [⟨0, 1, 1⟩], none⟩] 0) := by decide

/-- C4 (amended): after the usage-resolution phase of compile, a resource's
aggregated usage equals the OR of its initial usage with, for every versioned
ResourceNode of every resource whose ancestor chain contains it (itself and its
transitive sub-resources), that resource's initial usage ORed with the node's
valid reader-edge usages and its writer usage (the writer unconditionally);
consequently every sub-resource that has at least one versioned node has usage
that is a bitwise subset of its parent's. -/
theorem usage_aggregation (g : DepGraph) (nodes : List RNode) (res : List UResource)
    (hwf : parentsWF (parentsOf res))
    (hrids : ∀ n ∈ nodes, n.rid < res.length) :
    (∀ r : Nat,
      usageAt (resolveAllUsages g nodes res) r =
        usageAt res r ||| listOrU (nodes.filterMap (fun m =>
          if r ∈ ancChain (parentsOf res) res.length m.rid
          then some (usageAt res m.rid ||| contribOf g m) else none))) ∧
    (∀ (c : Nat) (rc : UResource), res[c]? = some rc → rc.parent ≠ c →
      (∃ m ∈ nodes, m.rid = c) →
      usageAt (resolveAllUsages g nodes res) c |||
        usageAt (resolveAllUsages g nodes res) rc.parent
        = usageAt (resolveAllUsages g nodes res) rc.parent) := by
  refine ⟨usageAt_resolveAllUsages_formula g nodes res hwf hrids, ?_⟩
  rintro c rc hc hne ⟨m0, hm0, hm0r⟩
  have hcl : c < res.length := (List.getElem?_eq_some_iff.mp hc).1
  have hpsc : (parentsOf res)[c]? = some rc.parent := by
    rw [getElem?_parentsOf, hc]
    rfl
  have hplt : rc.parent < res.length := by
    have := hwf c rc.parent hpsc
    omega
  have hpmem : rc.parent ∈ ancChain (parentsOf res) res.length c := by
    apply parent_mem_ancChain (parentsOf res) c rc.parent hpsc hne
    · rw [length_parentsOf]
      exact hplt
    · omega
  have hch := testBit_resolveAllUsages g nodes res hwf hrids
  apply Nat.eq_of_testBit_eq
  intro b
  rw [Nat.testBit_lor, Bool.eq_iff_iff]
  simp only [Bool.or_eq_true]
  constructor
  · rintro (hcbit | hpbit)
    · rcases (hch c b).mp hcbit with hbase | ⟨m, hm, hmc, hrest⟩
      · refine (hch rc.parent b).mpr (Or.inr ⟨m0, hm0, ?_, Or.inl ?_⟩)
        · rw [hm0r]
          exact hpmem
        · rw [hm0r]
          exact hbase
      · refine (hch rc.parent b).mpr (Or.inr ⟨m, hm, ?_, hrest⟩)
        exact mem_ancChain_trans (parentsOf res) hwf res.length m.rid c rc.parent
          (le_of_lt (hrids m hm)) hmc hpmem
    · exact hpbit
  · intro hb
    exact Or.inr hb

/-- Witness for C4's amended theorem on the counterexample scenario (root 0,
sub-resource 1 with one valid read edge of usage 1). -/
theorem usage_aggregation_witness :
    (parentsWF (parentsOf [(⟨0, 0⟩ : UResource), ⟨0, 0⟩]) ∧
     (∀ n ∈ [(⟨0, [], none⟩ : RNode), ⟨1, [⟨0, 1, 1⟩], none⟩],
        n.rid < ([(⟨0, 0⟩ : UResource), ⟨0, 0⟩]).length)) ∧
    (usageAt (resolveAllUsages ⟨[]⟩ [⟨0, [], none⟩, ⟨1, [⟨0, 1, 1⟩], none⟩]
        [⟨0, 0⟩, ⟨0, 0⟩]) 0
      = usageAt [⟨0, 0⟩, ⟨0, 0⟩] 0 |||
        listOrU (([(⟨0, [], none⟩ : RNode), ⟨1, [⟨0, 1, 1⟩], none⟩]).filterMap (fun m =>
          if 0 ∈ ancChain (parentsOf [(⟨0, 0⟩ : UResource), ⟨0, 0⟩])
              ([(⟨0, 0⟩ : UResource), ⟨0, 0⟩]).length m.rid
          then some (usageAt [(⟨0, 0⟩ : UResource), ⟨0, 0⟩] m.rid ||| contribOf ⟨[]⟩ m)
          else none))) ∧
    (usageAt (resolveAllUsages ⟨[]⟩ [⟨0, [], none⟩, ⟨1, [⟨0, 1, 1⟩], none⟩]
        [⟨0, 0⟩, ⟨0, 0⟩]) 1 |||
      usageAt (resolveAllUsages ⟨[]⟩ [⟨0, [], none⟩, ⟨1, [⟨0, 1, 1⟩], none⟩]
        [⟨0, 0⟩, ⟨0, 0⟩]) 0
      = usageAt (resolveAllUsages ⟨[]⟩ [⟨0, [], none⟩, ⟨1, [⟨0, 1, 1⟩], none⟩]
        [⟨0, 0⟩, ⟨0, 0⟩]) 0) := by
  have hwfW : parentsWF (parentsOf [(⟨0, 0⟩ : UResource), ⟨0, 0⟩]) := by
    intro i q hq
    rcases i with _ | _ | i
    · simp [parentsOf] at hq
      omega
    · simp [parentsOf] at hq
      omega
    · simp [parentsOf] at hq
  have h := usage_aggregation ⟨[]⟩ [⟨0, [], none⟩, ⟨1, [⟨0, 1, 1⟩], none⟩]
    [⟨0, 0⟩, ⟨0, 0⟩] hwfW (by decide)
  exact ⟨⟨hwfW, by decide⟩, h.1 0,
    h.2 1 ⟨0, 0⟩ (by decide) (by decide) ⟨⟨1, [⟨0, 1, 1⟩], none⟩, by decide, rfl⟩⟩

/-- C9: in `resolveUsage`, reader edges contribute their usage only when
`isEdgeValid` holds for them (ORing over the valid-filtered readers changes
nothing), while the writer edge's usage is ORed into the aggregate whenever a
writer exists, with no validity check — here stated with a writer edge whose
endpoints did not survive culling. -/
theorem resolveUsage_writer_unchecked (g : DepGraph) (res : List UResource) (rid : Nat)
    (edges : List ResourceEdge) (w : ResourceEdge) (r0 : UResource)
    (h : res[rid]? = some r0) (_hw : g.isEdgeValid w = false) :
    usageAt (resolveUsage g res rid edges (some w)) rid
      = r0.usage |||
        (orValidEdges g (edges.filter (fun e => g.isEdgeValid e)) 0 ||| w.usage) := by
  rw [usageAt_resolveUsage g res rid edges (some w) r0 h rid,
    if_pos (mem_ancChain_self _ _ _),
    usageAt_eq_of_getElem? res rid r0 h,
    ← Nat.lor_assoc, Nat.or_self, ← orValidEdges_filter]
  rfl

/-- Witness for C9: graph node 5 is culled, the writer edge comes from node 5
(so it is invalid), one valid reader (usage 1) and one invalid reader
(usage 2). -/
theorem resolveUsage_writer_unchecked_witness :
    (([(⟨0, 0⟩ : UResource)])[0]? = some ⟨0, 0⟩ ∧
     DepGraph.isEdgeValid ⟨[5]⟩ ⟨5, 0, 4⟩ = false) ∧
    usageAt (resolveUsage ⟨[5]⟩ [⟨0, 0⟩] 0 [⟨1, 2, 1⟩, ⟨5, 2, 2⟩] (some ⟨5, 0, 4⟩)) 0
      = (0 : Nat) |||
        (orValidEdges ⟨[5]⟩ (([(⟨1, 2, 1⟩ : ResourceEdge), ⟨5, 2, 2⟩]).filter
          (fun e => DepGraph.isEdgeValid ⟨[5]⟩ e)) 0 ||| 4) :=
  ⟨⟨by decide, by decide⟩,
   resolveUsage_writer_unchecked ⟨[5]⟩ [⟨0, 0⟩] 0 [⟨1, 2, 1⟩, ⟨5, 2, 2⟩] ⟨5, 0, 4⟩ ⟨0, 0⟩
     (by decide) (by decide)⟩

theorem testBit_orValidEdges_exists (g : DepGraph) (es : List ResourceEdge) (b : Nat) :
    ∀ u : Nat, (orValidEdges g es u).testBit b = true →
      u.testBit b = true ∨ ∃ e ∈ es, e.usage.testBit b = true := by
  induction es with
  | nil =>
    intro u h
    exact Or.inl h
  | cons e es ih =>
    intro u h
    have h' := ih (if g.isEdgeValid e = true then u ||| e.usage else u) h
    rcases h' with h1 | ⟨e2, he2, h2⟩
    · by_cases hv : g.isEdgeValid e = true
      · rw [if_pos hv, Nat.testBit_lor] at h1
        rw [Bool.or_eq_true] at h1
        rcases h1 with h3 | h3
        · exact Or.inl h3
        · exact Or.inr ⟨e, List.mem_cons_self e es, h3⟩
      · rw [if_neg hv] at h1
        exact Or.inl h1
    · exact Or.inr ⟨e2, List.mem_cons_of_mem _ he2, h2⟩

theorem contrib_testBit_le (g : DepGraph) (m : RNode) (cap : Nat)
    (hr : ∀ e ∈ m.readers, e.usage &&& cap = e.usage)
    (hw : ∀ w, m.writer = some w → w.usage &&& cap = w.usage)
    (b : Nat) (hb : (contribOf g m).testBit b = true) : cap.testBit b = true := by
  unfold contribOf at hb
  rw [Nat.testBit_lor] at hb
  rw [Bool.or_eq_true] at hb
  rcases hb with h1 | h2
  · rcases testBit_orValidEdges_exists g m.readers b 0 h1 with h0 | ⟨e, he, hbit⟩
    · rw [Nat.zero_testBit] at h0
      exact absurd h0 (by simp)
    · have hsub := hr e he
      have hb2 : (e.usage &&& cap).testBit b = true := by
        rw [hsub]
        exact hbit
      rw [Nat.testBit_land, Bool.and_eq_true] at hb2
      exact hb2.2
  · cases hwo : m.writer with
    | none =>
      rw [hwo] at h2
      rw [show writerOr none = 0 from rfl, Nat.zero_testBit] at h2
      exact absurd h2 (by simp)
    | some w =>
      rw [hwo] at h2
      have hsub := hw w hwo
      have hb2 : (w.usage &&& cap).testBit b = true := by
        rw [hsub]
        exact h2
      rw [Nat.testBit_land, Bool.and_eq_true] at hb2
      exact hb2.2

/-- C10: an imported root resource (usage field initialized to the declared
capability at construction) with no sub-resources ends usage resolution with
exactly the capability: every edge accepted by `ImportedResource::connect`
carries a usage that is a bitwise subset of the capability, and OR-ing subsets
leaves the field unchanged. -/
theorem imported_usage_stable (g : DepGraph) (nodes : List RNode) (res : List UResource)
    (hwf : parentsWF (parentsOf res))
    (hrids : ∀ n ∈ nodes, n.rid < res.length)
    (rid cap : Nat) (hself : res[rid]? = some ⟨rid, cap⟩)
    (hnosub : ∀ m ∈ nodes, m.rid ≠ rid →
      rid ∉ ancChain (parentsOf res) res.length m.rid)
    (hedges : ∀ m ∈ nodes, m.rid = rid →
      (∀ e ∈ m.readers, e.usage &&& cap = e.usage) ∧
      (∀ w, m.writer = some w → w.usage &&& cap = w.usage)) :
    usageAt (resolveAllUsages g nodes res) rid = cap := by
  have hbase : usageAt res rid = cap := usageAt_eq_of_getElem? res rid ⟨rid, cap⟩ hself
  apply Nat.eq_of_testBit_eq
  intro b
  rw [Bool.eq_iff_iff]
  rw [testBit_resolveAllUsages g nodes res hwf hrids rid b]
  rw [hbase]
  constructor
  · rintro (hb | ⟨m, hm, hmem, hrest⟩)
    · exact hb
    · by_cases hmr : m.rid = rid
      · rcases hrest with hb2 | hcb
        · rw [hmr, hbase] at hb2
          exact hb2
        · exact contrib_testBit_le g m cap ((hedges m hm hmr).1) ((hedges m hm hmr).2) b hcb
      · exact absurd hmem (hnosub m hm hmr)
  · intro hb
    exact Or.inl hb

/-- Witness for C10: one imported root with capability 3 and one node carrying
a read edge of usage 1 and a writer edge of usage 2 (both subsets of 3); the
resolved usage is exactly 3. -/
theorem imported_usage_stable_witness :
    (parentsWF (parentsOf [(⟨0, 3⟩ : UResource)]) ∧
     ([(⟨0, 3⟩ : UResource)])[0]? = some ⟨0, 3⟩) ∧
    usageAt (resolveAllUsages ⟨[]⟩ [⟨0, [⟨0, 1, 1⟩], some ⟨1, 0, 2⟩⟩] [⟨0, 3⟩]) 0 = 3 := by
  have hwfW : parentsWF (parentsOf [(⟨0, 3⟩ : UResource)]) := by
    intro i q hq
    rcases i with _ | i
    · simp [parentsOf] at hq
      omega
    · simp [parentsOf] at hq
  refine ⟨⟨hwfW, by decide⟩, ?_⟩
  apply imported_usage_stable ⟨[]⟩ [⟨0, [⟨0, 1, 1⟩], some ⟨1, 0, 2⟩⟩] [⟨0, 3⟩] hwfW
    (by decide) 0 3 (by decide)
  · intro m hm hmr
    rw [List.mem_singleton] at hm
    subst hm
    exact absurd rfl hmr
  · intro m hm hmr
    rw [List.mem_singleton] at hm
    subst hm
    refine ⟨by decide, ?_⟩
    intro w hw
    cases hw
    decide

/-!
Cluster 4 models the reference-counting half of `FrameGraph::compile`
(FrameGraph.cpp, lines 117-142): for every surviving pass, `neededByPass` on
the resource behind each incoming edge, then on the resource behind each
outgoing edge, then `resolve()`.
-/

/-- An edge incident to a pass as compile's loop sees it: the resource behind
the ResourceNode endpoint and whether that node was culled. The
DependencyGraph adjacency lists are modelled from the spec (§4.A,
DependencyGraph.h is not under src/). -/
structure CEdge where
  rid : Nat
  nodeCulled : Bool
  deriving Repr, DecidableEq

/-- A pass in compile's loop: its culled flag, its incoming edges (reads) and
outgoing edges (writes). Passes are identified by their position in
declaration order (`mPassNodes` order). -/
structure CPass where
  culled : Bool
  incoming : List CEdge
  outgoing : List CEdge
  deriving Repr, DecidableEq

/-- The compile-time bookkeeping fields of `VirtualResource` (Resource.h,
lines 57-60): `refcount`, `first`, `last` (pass positions, `none` = null). -/
structure LResource where
  refcount : Nat
  first : Option Nat
  last : Option Nat
  deriving Repr, DecidableEq

/-- Modelled from the spec (§4.B): "`needed_by_pass(pass)`: if `first` is null,
set `first = pass`; always update `last = pass` and increment `refcount`"
(`VirtualResource::neededByPass` is declared at Resource.h line 69; its body is
not under src/). -/
def neededByPass (r : LResource) (pid : Nat) : LResource :=
  ⟨r.refcount + 1,
   match r.first with
   | none => some pid
   | some f => some f,
   some pid⟩

/-- Processing of one surviving pass (FrameGraph.cpp, lines 122-139): call
`neededByPass` on the resource behind every incoming edge, then on the
resource behind every outgoing edge — the code deliberately includes outgoing
edges to culled nodes (comment, lines 133-135). -/
def passRefs (p : CPass) (i : Nat) (res : List LResource) : List LResource :=
  p.outgoing.foldl (fun acc e => modifyAt acc e.rid (fun r => neededByPass r i))
    (p.incoming.foldl (fun acc e => modifyAt acc e.rid (fun r => neededByPass r i)) res)

/-- The pass loop of compile (lines 117-142): in declaration order, skip
culled passes, process the others; `i` is the position of the list's first
pass. -/
def compileRefs : List CPass → Nat → List LResource → List LResource
  | [], _, res => res
  | p :: ps, i, res =>
    compileRefs ps (i + 1) (if p.culled then res else passRefs p i res)

/-- Call events of the compile pass loop: a `neededByPass(pass)` on a resource,
or a `resolve()` on a pass. -/
inductive CallEv where
  | needed (rid pid : Nat)
  | resolveCall (pid : Nat)
  deriving Repr, DecidableEq

/-- The call trace of the compile pass loop as the code performs it
(FrameGraph.cpp, lines 117-142): for each surviving pass, `neededByPass` for
every incoming edge, then for every outgoing edge (culled target or not), then
`resolve`. -/
def compileTrace : List CPass → Nat → List CallEv
  | [], _ => []
  | p :: ps, i =>
    (if p.culled then []
     else (p.incoming.map (fun e => CallEv.needed e.rid i)) ++
          (p.outgoing.map (fun e => CallEv.needed e.rid i)) ++
          [CallEv.resolveCall i]) ++ compileTrace ps (i + 1)

/-- The call trace C8 claims, written from the claim's words: identical except
that outgoing edges are only counted when their ResourceNode endpoint is
non-culled. -/
def compileTraceClaim : List CPass → Nat → List CallEv
  | [], _ => []
  | p :: ps, i =>
    (if p.culled then []
     else (p.incoming.map (fun e => CallEv.needed e.rid i)) ++
          ((p.outgoing.filter (fun e => !e.nodeCulled)).map
            (fun e => CallEv.needed e.rid i)) ++
          [CallEv.resolveCall i]) ++ compileTraceClaim ps (i + 1)

/-- Replay the `neededByPass` calls of a trace on the resource state
(`resolve` touches no resource). -/
def applyTrace (tr : List CallEv) (res : List LResource) : List LResource :=
  tr.foldl (fun acc ev =>
    match ev with
    | CallEv.needed rid pid => modifyAt acc rid (fun r => neededByPass r pid)
    | CallEv.resolveCall _ => acc) res

/-- Number of edges of pass `p` (incoming and outgoing) whose resource is
`rid`: the number of `neededByPass` calls `p` makes on that resource. -/
def touchCount (rid : Nat) (p : CPass) : Nat :=
  (p.incoming ++ p.outgoing).countP (fun e => e.rid == rid)

/-- Whether pass `p` references resource `rid` through any edge. -/
def touches (rid : Nat) (p : CPass) : Bool :=
  (p.incoming ++ p.outgoing).any (fun e => e.rid == rid)

/-- Total refcount contributed to `rid` by the surviving passes. -/
def refTotal (rid : Nat) : List CPass → Nat
  | [] => 0
  | p :: ps => (if p.culled then 0 else touchCount rid p) + refTotal rid ps

/-- Position of the earliest surviving pass (at positions `≥ i`) that
references `rid`. -/
def firstTouch (rid : Nat) : List CPass → Nat → Option Nat
  | [], _ => none
  | p :: ps, i =>
    if !p.culled && touches rid p then some i else firstTouch rid ps (i + 1)

/-- Position of the latest surviving pass (at positions `≥ i`) that references
`rid`. -/
def lastTouch (rid : Nat) : List CPass → Nat → Option Nat
  | [], _ => none
  | p :: ps, i =>
    match lastTouch rid ps (i + 1) with
    | some l => some l
    | none => if !p.culled && touches rid p then some i else none

/-- Result of `k` successive `neededByPass` calls with pass `i` on `r0`. -/
def appliedK (k i : Nat) (r0 : LResource) : LResource :=
  if k = 0 then r0
  else ⟨r0.refcount + k,
        match r0.first with
        | none => some i
        | some f => some f,
        some i⟩

theorem getElem?_modifyAt_self {α : Type} (l : List α) (i : Nat) (f : α → α) :
    (modifyAt l i f)[i]? = (l[i]?).map f := by
  unfold modifyAt
  cases h : l[i]? with
  | none => simp [h]
  | some a =>
    rw [List.getElem?_set_self ((List.getElem?_eq_some_iff.mp h).1)]
    rfl

theorem getElem?_modifyAt_ne {α : Type} (l : List α) (i j : Nat) (f : α → α)
    (hne : i ≠ j) : (modifyAt l i f)[j]? = l[j]? := by
  unfold modifyAt
  cases h : l[i]? with
  | none => rfl
  | some a => exact List.getElem?_set_ne hne

theorem appliedK_one (i : Nat) (r0 : LResource) : neededByPass r0 i = appliedK 1 i r0 := by
  unfold neededByPass appliedK
  simp

theorem appliedK_add (k1 k2 i : Nat) (r0 : LResource) :
    appliedK k2 i (appliedK k1 i r0) = appliedK (k1 + k2) i r0 := by
  unfold appliedK
  by_cases h1 : k1 = 0
  · subst h1
    simp
  · by_cases h2 : k2 = 0
    · subst h2
      simp [h1]
    · rw [if_neg h1, if_neg (by omega : ¬ (k1 + k2 = 0))]
      rw [if_neg h2]
      cases hf : r0.first <;> simp [hf] <;> omega

theorem foldNeeded_entry (i : Nat) (edges : List CEdge) :
    ∀ (res : List LResource) (rid : Nat) (r0 : LResource), res[rid]? = some r0 →
    (edges.foldl (fun acc e => modifyAt acc e.rid (fun r => neededByPass r i)) res)[rid]?
      = some (appliedK (edges.countP (fun e => e.rid == rid)) i r0) := by
  induction edges with
  | nil =>
    intro res rid r0 h
    simpa [appliedK] using h
  | cons e es ih =>
    intro res rid r0 h
    show (es.foldl _ (modifyAt res e.rid (fun r => neededByPass r i)))[rid]? = _
    by_cases he : e.rid = rid
    · have h1 : (modifyAt res e.rid (fun r => neededByPass r i))[rid]?
          = some (neededByPass r0 i) := by
        rw [he, getElem?_modifyAt_self, h]
        rfl
      rw [ih _ rid (neededByPass r0 i) h1, appliedK_one, appliedK_add]
      congr 1
      rw [List.countP_cons]
      simp [he, Nat.add_comm]
    · have h1 : (modifyAt res e.rid (fun r => neededByPass r i))[rid]? = some r0 := by
        rw [getElem?_modifyAt_ne _ _ _ _ he, h]
      rw [ih _ rid r0 h1]
      congr 2
      rw [List.countP_cons]
      simp [he]

theorem passRefs_entry (p : CPass) (i : Nat) (res : List LResource) (rid : Nat)
    (r0 : LResource) (h : res[rid]? = some r0) :
    (passRefs p i res)[rid]? = some (appliedK (touchCount rid p) i r0) := by
  unfold passRefs touchCount
  have h1 := foldNeeded_entry i p.incoming res rid r0 h
  rw [foldNeeded_entry i p.outgoing _ rid _ h1, appliedK_add, List.countP_append]

theorem touches_iff (rid : Nat) (p : CPass) :
    touches rid p = true ↔ touchCount rid p ≠ 0 := by
  unfold touches touchCount
  rw [List.any_eq_true]
  constructor
  · rintro ⟨e, he, hp⟩ h0
    rw [List.countP_eq_zero] at h0
    exact (h0 e he) hp
  · intro h
    by_contra hno
    push_neg at hno
    apply h
    rw [List.countP_eq_zero]
    intro a ha hpa
    exact hno a ha hpa

theorem compileRefs_entry (passes : List CPass) :
    ∀ (i : Nat) (res : List LResource) (rid : Nat) (r0 : LResource),
    res[rid]? = some r0 →
    (compileRefs passes i res)[rid]? = some
      ⟨r0.refcount + refTotal rid passes,
       (match r0.first with
        | some f => some f
        | none => firstTouch rid passes i),
       (match lastTouch rid passes i with
        | some l => some l
        | none => r0.last)⟩ := by
  induction passes with
  | nil =>
    intro i res rid r0 h
    show res[rid]? = _
    rw [h]
    cases r0 with
    | mk c f l =>
      simp only [refTotal, firstTouch, lastTouch]
      cases f <;> simp
  | cons p ps ih =>
    intro i res rid r0 h
    rw [show compileRefs (p :: ps) i res
        = compileRefs ps (i + 1) (if p.culled = true then res else passRefs p i res)
      from rfl]
    by_cases hc : p.culled = true
    · rw [if_pos hc]
      rw [ih (i + 1) res rid r0 h]
      simp only [refTotal, firstTouch, lastTouch, hc, Bool.not_true, Bool.false_and,
        Bool.false_eq_true, if_false, if_true]
      cases hl : lastTouch rid ps (i + 1) <;> simp [hl]
    · rw [if_neg hc]
      have h1 := passRefs_entry p i res rid r0 h
      rw [ih (i + 1) _ rid _ h1]
      have hcf : p.culled = false := by
        cases hb : p.culled
        · rfl
        · exact absurd hb hc
      by_cases hk : touchCount rid p = 0
      · have ht : touches rid p = false := by
          cases hb : touches rid p
          · rfl
          · exact absurd hk ((touches_iff rid p).mp hb)
        simp only [appliedK, if_pos hk]
        simp only [refTotal, firstTouch, lastTouch, hcf, ht, Bool.not_false, Bool.true_and,
          Bool.false_eq_true, if_false, hk]
        cases hl : lastTouch rid ps (i + 1) <;> simp [hl]
      · have ht : touches rid p = true := by
          cases hb : touches rid p
          · exfalso
            apply hk
            by_contra hkk
            have hx := (touches_iff rid p).mpr hkk
            rw [hb] at hx
            exact Bool.noConfusion hx
          · rfl
        simp only [appliedK, if_neg hk]
        simp only [refTotal, firstTouch, lastTouch, hcf, ht, Bool.not_false, Bool.true_and,
          Bool.false_eq_true, if_false, if_true]
        cases hf : r0.first <;> cases hl : lastTouch rid ps (i + 1) <;>
          simp [hf, hl, Nat.add_assoc]

theorem lastTouch_ge (rid : Nat) (passes : List CPass) :
    ∀ (i l : Nat), lastTouch rid passes i = some l → i ≤ l := by
  induction passes with
  | nil =>
    intro i l h
    simp [lastTouch] at h
  | cons p ps ih =>
    intro i l h
    unfold lastTouch at h
    cases hl : lastTouch rid ps (i + 1) with
    | some l2 =>
      rw [hl] at h
      cases h
      have := ih (i + 1) l hl
      omega
    | none =>
      rw [hl] at h
      by_cases hcond : (!p.culled && touches rid p) = true
      · rw [if_pos hcond] at h
        cases h
        exact le_rfl
      · rw [if_neg hcond] at h
        exact absurd h (by simp)

theorem firstTouch_le_lastTouch (rid : Nat) (passes : List CPass) :
    ∀ (i f : Nat), firstTouch rid passes i = some f →
      ∃ l, lastTouch rid passes i = some l ∧ f ≤ l := by
  induction passes with
  | nil =>
    intro i f h
    simp [firstTouch] at h
  | cons p ps ih =>
    intro i f h
    unfold firstTouch at h
    show ∃ l, (match lastTouch rid ps (i + 1) with
      | some l => some l
      | none => if !p.culled && touches rid p then some i else none) = some l ∧ f ≤ l
    by_cases hcond : (!p.culled && touches rid p) = true
    · rw [if_pos hcond] at h
      cases h
      cases hl : lastTouch rid ps (i + 1) with
      | some l2 =>
        refine ⟨l2, rfl, ?_⟩
        have := lastTouch_ge rid ps (i + 1) l2 hl
        omega
      | none =>
        rw [if_pos hcond]
        exact ⟨i, rfl, le_rfl⟩
    · rw [if_neg hcond] at h
      rcases ih (i + 1) f h with ⟨l, hl, hfl⟩
      rw [hl]
      exact ⟨l, rfl, hfl⟩

theorem applyTrace_compileTrace (passes : List CPass) :
    ∀ (i : Nat) (res : List LResource),
    applyTrace (compileTrace passes i) res = compileRefs passes i res := by
  induction passes with
  | nil => intro i res; rfl
  | cons p ps ih =>
    intro i res
    show applyTrace ((if p.culled = true then []
      else (p.incoming.map (fun e => CallEv.needed e.rid i)) ++
           (p.outgoing.map (fun e => CallEv.needed e.rid i)) ++
           [CallEv.resolveCall i]) ++ compileTrace ps (i + 1)) res
      = compileRefs ps (i + 1) (if p.culled = true then res else passRefs p i res)
    unfold applyTrace
    rw [List.foldl_append]
    by_cases hc : p.culled = true
    · rw [if_pos hc, if_pos hc]
      exact ih (i + 1) res
    · rw [if_neg hc, if_neg hc]
      rw [List.foldl_append, List.foldl_append, List.foldl_map, List.foldl_map]
      exact ih (i + 1) (passRefs p i res)

/-- C8 counterexample: one surviving pass whose only edge is an outgoing edge
to a culled ResourceNode. The code still calls `neededByPass` for it (the
state gains refcount 1 and first/last get set), while the claim's call list —
restricted to outgoing edges with non-culled targets — omits the call. -/
theorem compile_neededByPass_counterexample :
    compileTrace [⟨false, [], [⟨0, true⟩]⟩] 0
      = [CallEv.needed 0 0, CallEv.resolveCall 0] ∧
    compileTraceClaim [⟨false, [], [⟨0, true⟩]⟩] 0 = [CallEv.resolveCall 0] ∧
    ¬ (compileTrace [⟨false, [], [⟨0, true⟩]⟩] 0
        = compileTraceClaim [⟨false, [], [⟨0, true⟩]⟩] 0) ∧
    compileRefs [⟨false, [], [⟨0, true⟩]⟩] 0 [⟨0, none, none⟩]
      = [⟨1, some 0, some 0⟩] := by decide

/-- C8 (amended): during compile, for every surviving pass, `neededByPass` is
invoked on the resource behind every incoming edge and on the resource behind
every outgoing edge regardless of whether the target ResourceNode was culled,
after which the pass's `resolve` is called (replaying the recorded call trace
on the resource state yields exactly the compile bookkeeping); `neededByPass`
sets `first` once, always updates `last`, and increments `refcount`, so a
resource starting from ⟨0, none, none⟩ ends with `refcount` equal to its total
edge references from surviving passes, `first`/`last` the earliest/latest
surviving referencing pass, and `first ≤ last` in declaration order whenever
set. -/
theorem compile_neededByPass_spec (passes : List CPass) (res : List LResource)
    (rid : Nat) (h0 : res[rid]? = some ⟨0, none, none⟩) :
    applyTrace (compileTrace passes 0) res = compileRefs passes 0 res ∧
    (compileRefs passes 0 res)[rid]? = some
      ⟨refTotal rid passes, firstTouch rid passes 0, lastTouch rid passes 0⟩ ∧
    (∀ f, firstTouch rid passes 0 = some f →
      ∃ l, lastTouch rid passes 0 = some l ∧ f ≤ l) := by
  refine ⟨applyTrace_compileTrace passes 0 res, ?_,
    fun f hf => firstTouch_le_lastTouch rid passes 0 f hf⟩
  rw [compileRefs_entry passes 0 res rid ⟨0, none, none⟩ h0]
  cases hl : lastTouch rid passes 0 <;> simp [hl]

/-- Witness for C8's amended theorem: two surviving passes, the first reading
resource 0, the second writing it. -/
theorem compile_neededByPass_spec_witness :
    (([(⟨0, none, none⟩ : LResource)])[0]? = some ⟨0, none, none⟩) ∧
    (applyTrace (compileTrace [⟨false, [⟨0, false⟩], []⟩, ⟨false, [], [⟨0, false⟩]⟩] 0)
        [⟨0, none, none⟩]
      = compileRefs [⟨false, [⟨0, false⟩], []⟩, ⟨false, [], [⟨0, false⟩]⟩] 0
        [⟨0, none, none⟩] ∧
     (compileRefs [⟨false, [⟨0, false⟩], []⟩, ⟨false, [], [⟨0, false⟩]⟩] 0
        [⟨0, none, none⟩])[0]? = some
       ⟨refTotal 0 [⟨false, [⟨0, false⟩], []⟩, ⟨false, [], [⟨0, false⟩]⟩],
        firstTouch 0 [⟨false, [⟨0, false⟩], []⟩, ⟨false, [], [⟨0, false⟩]⟩] 0,
        lastTouch 0 [⟨false, [⟨0, false⟩], []⟩, ⟨false, [], [⟨0, false⟩]⟩] 0⟩ ∧
     (∃ l, lastTouch 0 [⟨false, [⟨0, false⟩], []⟩, ⟨false, [], [⟨0, false⟩]⟩] 0
        = some l ∧ 0 ≤ l)) :=
  ⟨by decide,
   ⟨(compile_neededByPass_spec [⟨false, [⟨0, false⟩], []⟩, ⟨false, [], [⟨0, false⟩]⟩]
       [⟨0, none, none⟩] 0 (by decide)).1,
    (compile_neededByPass_spec [⟨false, [⟨0, false⟩], []⟩, ⟨false, [], [⟨0, false⟩]⟩]
       [⟨0, none, none⟩] 0 (by decide)).2.1,
    (compile_neededByPass_spec [⟨false, [⟨0, false⟩], []⟩, ⟨false, [], [⟨0, false⟩]⟩]
       [⟨0, none, none⟩] 0 (by decide)).2.2 0 (by decide)⟩⟩

end FG